import Mathlib

/-!
Verification model of the `chatbot` repository's task scheduler and
retry-validating task wrapper.

The model is a shallow embedding of `src/new/run.ts` (class `TaskGraph`:
`topologicalSort`, `execute`, `executeParallel`, class
`CyclicDependencyError`) and of `createJsonTask` from the tasks module.

Modelling conventions:
* A JS `Map<string, TaskDescriptor>` in its final state is an association
  list with pairwise-distinct keys, in insertion order (JS `Map` preserves
  insertion order and `set` on an existing key keeps its position).
* A JS `Set<string>` (the `visiting` set of `topologicalSort`) is a
  duplicate-free list in insertion order; `[...visiting, name]` is
  `visiting ++ [name]` and `visiting.delete(name)` removes the occurrence.
* The recursive `visit` of `topologicalSort` is embedded with explicit
  fuel; `topologicalSort` runs it with fuel `g.length + 1`, which is
  proved sufficient (`visit_fuel` below), so the `.fuelOut` result is
  unreachable and the embedding is total on the same inputs as the source.
* Task actions are abstracted by their outcome (`Except String Unit`,
  the error being the thrown error's message); annotation-store and
  conversation effects are modelled explicitly where a claim needs them.
* Promise scheduling in `executeParallel` is embedded as a deterministic
  dataflow: unit results are computed in plan order; `Promise.all` over a
  task's dependency promises rejects with the first rejected dependency in
  declaration order (faithful whenever at most one dependency fails, which
  is the only case the claims constrain).
-/

namespace Chatbot

/-- A dependency graph: the final state of the `TaskGraph`'s task map,
as an insertion-ordered association list from task name to the task's
declared dependency names. -/
abbrev Graph := List (String × List String)

/-- Key lookup in the task map (`this.#tasks.get(name)`), returning the
dependency list of the named task. -/
def lookupDeps : Graph → String → Option (List String)
  | [], _ => none
  | (k, ds) :: g, n => if k = n then some ds else lookupDeps g n

/-- The registered task names, in insertion order (`Map` iteration order). -/
def keysOf (g : Graph) : List String := g.map Prod.fst

/-- Removes the first occurrence of a name from a list
(`Set.prototype.delete` on the `visiting` set). -/
def eraseFirst : List String → String → List String
  | [], _ => []
  | x :: xs, n => if x = n then xs else x :: eraseFirst xs n

/-- The errors `topologicalSort` can throw: `CyclicDependencyError`
carrying its `path`, or the `Task not found: ...` error carrying the
missing name.  `fuelOut` is an artifact of the fuelled embedding and is
proved unreachable for the fuel `topologicalSort` uses. -/
inductive SortError where
  | cyclic (path : List String)
  | notFound (name : String)
  | fuelOut
  deriving Repr, DecidableEq

/-- The mutable state of `topologicalSort`: the output array `sorted`,
the `visited` set and the `visiting` set (both as insertion-ordered
duplicate-free lists). -/
structure SortState where
  sorted : List String
  visited : List String
  visiting : List String
  deriving Repr, DecidableEq

mutual

/-- The inner recursive closure `visit` of `TaskGraph.topologicalSort`. -/
def visit (g : Graph) : Nat → String → SortState → Except SortError SortState
  | 0, _, _ => .error .fuelOut
  | fuel + 1, name, st =>
    if name ∈ st.visited then
      .ok st
    else if name ∈ st.visiting then
      .error (.cyclic (st.visiting ++ [name]))
    else
      let st1 : SortState := { st with visiting := st.visiting ++ [name] }
      match lookupDeps g name with
      | none => .error (.notFound name)
      | some deps =>
        match visitList g fuel deps st1 with
        | .error e => .error e
        | .ok st2 =>
          .ok { sorted := st2.sorted ++ [name]
                visited := st2.visited ++ [name]
                visiting := eraseFirst st2.visiting name }
termination_by fuel _ _ => (fuel, 0)

/-- `deps.forEach(visit)`: visits a list of names left to right,
threading the state. -/
def visitList (g : Graph) : Nat → List String → SortState → Except SortError SortState
  | _, [], st => .ok st
  | fuel, d :: ds, st =>
    match visit g fuel d st with
    | .error e => .error e
    | .ok st' => visitList g fuel ds st'
termination_by fuel ds _ => (fuel, ds.length + 1)

end

/-- `TaskGraph.topologicalSort`: visits every registered name in insertion
order and returns the sorted plan, or the first structural error thrown. -/
def topologicalSort (g : Graph) : Except SortError (List String) :=
  match visitList g (g.length + 1) (keysOf g) ⟨[], [], []⟩ with
  | .error e => .error e
  | .ok st => .ok st.sorted

/-- The transitive dependency relation of a graph: `DepOn g t d` holds when
registered task `t` (transitively) depends on name `d`. -/
inductive DepOn (g : Graph) : String → String → Prop where
  | direct {t d ds} : lookupDeps g t = some ds → d ∈ ds → DepOn g t d
  | step {t m d ds} : lookupDeps g t = some ds → m ∈ ds → DepOn g m d → DepOn g t d

end Chatbot

namespace Chatbot

-- Basic unfolding lemmas for the fuelled recursion.

theorem visit_zero (g : Graph) (n : String) (st : SortState) :
    visit g 0 n st = .error .fuelOut := by
  simp [visit]

theorem visit_succ (g : Graph) (fuel : Nat) (name : String) (st : SortState) :
    visit g (fuel + 1) name st =
      if name ∈ st.visited then
        .ok st
      else if name ∈ st.visiting then
        .error (.cyclic (st.visiting ++ [name]))
      else
        match lookupDeps g name with
        | none => .error (.notFound name)
        | some deps =>
          match visitList g fuel deps { st with visiting := st.visiting ++ [name] } with
          | .error e => .error e
          | .ok st2 =>
            .ok { sorted := st2.sorted ++ [name]
                  visited := st2.visited ++ [name]
                  visiting := eraseFirst st2.visiting name } := by
  rw [visit]

theorem visit_hit (g : Graph) (fuel : Nat) {name : String} {st : SortState}
    (h1 : name ∈ st.visited) : visit g (fuel + 1) name st = .ok st := by
  rw [visit_succ, if_pos h1]

theorem visit_cycleHit (g : Graph) (fuel : Nat) {name : String} {st : SortState}
    (h1 : name ∉ st.visited) (h2 : name ∈ st.visiting) :
    visit g (fuel + 1) name st = .error (.cyclic (st.visiting ++ [name])) := by
  rw [visit_succ, if_neg h1, if_pos h2]

theorem visit_missing (g : Graph) (fuel : Nat) {name : String} {st : SortState}
    (h1 : name ∉ st.visited) (h2 : name ∉ st.visiting)
    (hl : lookupDeps g name = none) :
    visit g (fuel + 1) name st = .error (.notFound name) := by
  rw [visit_succ, if_neg h1, if_neg h2, hl]

theorem visit_main (g : Graph) (fuel : Nat) {name : String} {st : SortState}
    {deps : List String} (h1 : name ∉ st.visited) (h2 : name ∉ st.visiting)
    (hl : lookupDeps g name = some deps) :
    visit g (fuel + 1) name st =
      match visitList g fuel deps { st with visiting := st.visiting ++ [name] } with
      | .error e => .error e
      | .ok st2 =>
        .ok { sorted := st2.sorted ++ [name]
              visited := st2.visited ++ [name]
              visiting := eraseFirst st2.visiting name } := by
  rw [visit_succ, if_neg h1, if_neg h2, hl]

theorem visitList_nil (g : Graph) (fuel : Nat) (st : SortState) :
    visitList g fuel [] st = .ok st := by
  rw [visitList]

theorem visitList_cons (g : Graph) (fuel : Nat) (d : String) (ds : List String)
    (st : SortState) :
    visitList g fuel (d :: ds) st =
      match visit g fuel d st with
      | .error e => .error e
      | .ok st' => visitList g fuel ds st' := by
  rw [visitList]

-- Sanity examples (plans computed by the model).
example :
    topologicalSort [("A", ["B"]), ("B", [])] = .ok ["B", "A"] := by
  simp [topologicalSort, visitList, visit, keysOf, lookupDeps, eraseFirst]

example :
    topologicalSort [("A", ["B"]), ("B", ["A"])] =
      .error (.cyclic ["A", "B", "A"]) := by
  simp [topologicalSort, visitList, visit, keysOf, lookupDeps, eraseFirst]

example :
    topologicalSort [("X", ["A"]), ("A", ["B"]), ("B", ["A"])] =
      .error (.cyclic ["X", "A", "B", "A"]) := by
  simp [topologicalSort, visitList, visit, keysOf, lookupDeps, eraseFirst]

example :
    topologicalSort [("X", ["Z"]), ("Y", []), ("Z", [])] =
      .ok ["Z", "X", "Y"] := by
  simp [topologicalSort, visitList, visit, keysOf, lookupDeps, eraseFirst]

example :
    topologicalSort [("A", ["missing"])] = .error (.notFound "missing") := by
  simp [topologicalSort, visitList, visit, keysOf, lookupDeps, eraseFirst]

-- Association-list facts.

theorem lookupDeps_eq_none_iff {g : Graph} {n : String} :
    lookupDeps g n = none ↔ n ∉ keysOf g := by
  induction g with
  | nil => simp [lookupDeps, keysOf]
  | cons p g ih =>
    obtain ⟨k, ds⟩ := p
    by_cases hk : k = n
    · subst hk
      simp [lookupDeps, keysOf]
    · simp [lookupDeps, keysOf, hk, ih]
      intro h
      exact fun h' => hk h'.symm

theorem mem_keysOf_of_lookupDeps {g : Graph} {n : String} {ds : List String}
    (h : lookupDeps g n = some ds) : n ∈ keysOf g := by
  by_contra hmem
  rw [← lookupDeps_eq_none_iff] at hmem
  rw [hmem] at h
  exact Option.noConfusion h

theorem lookupDeps_isSome_of_mem {g : Graph} {n : String} (h : n ∈ keysOf g) :
    ∃ ds, lookupDeps g n = some ds := by
  cases hl : lookupDeps g n with
  | none => exact absurd (lookupDeps_eq_none_iff.mp hl) (by simp [h])
  | some ds => exact ⟨ds, rfl⟩

theorem eraseFirst_append_self {l : List String} {n : String} (h : n ∉ l) :
    eraseFirst (l ++ [n]) n = l := by
  induction l with
  | nil => simp [eraseFirst]
  | cons x xs ih =>
    have hx : x ≠ n := by rintro rfl; exact h (List.mem_cons_self _ _)
    have hxs : n ∉ xs := fun hm => h (List.mem_cons_of_mem _ hm)
    simp [eraseFirst, hx, ih hxs]

-- Positions in a list (first occurrence), used to state "appears before".

def idxOf : List String → String → Nat
  | [], _ => 0
  | x :: xs, n => if x = n then 0 else idxOf xs n + 1

theorem idxOf_append_left {l : List String} (l' : List String) {n : String}
    (h : n ∈ l) : idxOf (l ++ l') n = idxOf l n := by
  induction l with
  | nil => cases h
  | cons x xs ih =>
    by_cases hx : x = n
    · simp [idxOf, hx]
    · have : n ∈ xs := by
        rcases List.mem_cons.mp h with h' | h'
        · exact absurd h'.symm hx
        · exact h'
      simp [idxOf, hx, ih this]

theorem idxOf_append_self {l : List String} {n : String} (h : n ∉ l) :
    idxOf (l ++ [n]) n = l.length := by
  induction l with
  | nil => simp [idxOf]
  | cons x xs ih =>
    have hx : x ≠ n := by rintro rfl; exact h (List.mem_cons_self _ _)
    have hxs : n ∉ xs := fun hm => h (List.mem_cons_of_mem _ hm)
    simp [idxOf, hx, ih hxs]

theorem idxOf_lt_length {l : List String} {n : String} (h : n ∈ l) :
    idxOf l n < l.length := by
  induction l with
  | nil => cases h
  | cons x xs ih =>
    by_cases hx : x = n
    · simp [idxOf, hx]
    · have : n ∈ xs := by
        rcases List.mem_cons.mp h with h' | h'
        · exact absurd h'.symm hx
        · exact h'
      simp only [idxOf, if_neg hx, List.length_cons]
      exact Nat.succ_lt_succ (ih this)

-- Counting registered names not yet in the `visiting` set: the measure that
-- bounds the recursion depth of `visit`.

def freeN (g : Graph) (vis : List String) : Nat :=
  ((keysOf g).filter fun n => decide (n ∉ vis)).length

theorem filter_length_le {l : List String} {p q : String → Bool}
    (h : ∀ x, q x = true → p x = true) :
    (l.filter q).length ≤ (l.filter p).length := by
  induction l with
  | nil => simp
  | cons x xs ih =>
    cases hq : q x with
    | true =>
      simp [List.filter_cons, hq, h x hq]
      exact ih
    | false =>
      cases hp : p x with
      | true =>
        simp [List.filter_cons, hq, hp]
        exact Nat.le_succ_of_le ih
      | false => simpa [List.filter_cons, hq, hp] using ih

theorem filter_length_lt {l : List String} {p q : String → Bool}
    (h : ∀ x, q x = true → p x = true) {a : String} (ha : a ∈ l)
    (hpa : p a = true) (hqa : q a = false) :
    (l.filter q).length < (l.filter p).length := by
  induction l with
  | nil => cases ha
  | cons x xs ih =>
    rcases List.mem_cons.mp ha with rfl | hmem
    · have hle := filter_length_le (l := xs) h
      simp [List.filter_cons, hpa, hqa]
      omega
    · cases hq : q x with
      | true =>
        have := ih hmem
        simp [List.filter_cons, hq, h x hq]
        omega
      | false =>
        cases hp : p x with
        | true =>
          have := ih hmem
          simp [List.filter_cons, hq, hp]
          omega
        | false =>
          simpa [List.filter_cons, hq, hp] using ih hmem

theorem freeN_push_lt {g : Graph} {vis : List String} {n : String}
    (hk : n ∈ keysOf g) (hv : n ∉ vis) :
    freeN g (vis ++ [n]) < freeN g vis := by
  refine filter_length_lt ?_ hk (by simpa using hv) (by simp)
  intro x hx
  simp only [decide_eq_true_eq] at hx ⊢
  intro hxv
  exact hx (List.mem_append_left _ hxv)

-- The `visiting` set is restored on every successful visit: each call
-- removes exactly the name it added.

theorem visiting_preserved (g : Graph) :
    ∀ fuel,
      (∀ n st st', visit g fuel n st = .ok st' → st'.visiting = st.visiting) ∧
      (∀ ds st st', visitList g fuel ds st = .ok st' → st'.visiting = st.visiting) := by
  intro fuel
  induction fuel with
  | zero =>
    constructor
    · intro n st st' h
      rw [visit_zero] at h
      exact Except.noConfusion h
    · intro ds
      cases ds with
      | nil =>
        intro st st' h
        rw [visitList_nil] at h
        injection h with h
        subst h; rfl
      | cons d ds =>
        intro st st' h
        rw [visitList_cons] at h
        rw [visit_zero] at h
        exact Except.noConfusion h
  | succ f ih =>
    have hv : ∀ n st st', visit g (f + 1) n st = .ok st' → st'.visiting = st.visiting := by
      intro n st st' h
      by_cases h1 : n ∈ st.visited
      · rw [visit_hit g f h1] at h
        injection h with h
        subst h; rfl
      · by_cases h2 : n ∈ st.visiting
        · rw [visit_cycleHit g f h1 h2] at h
          exact Except.noConfusion h
        · cases hl : lookupDeps g n with
          | none =>
            rw [visit_missing g f h1 h2 hl] at h
            exact Except.noConfusion h
          | some deps =>
            rw [visit_main g f h1 h2 hl] at h
            cases hvl : visitList g f deps { st with visiting := st.visiting ++ [n] } with
            | error e =>
              rw [hvl] at h
              exact Except.noConfusion h
            | ok st2 =>
              rw [hvl] at h
              injection h with h
              subst h
              have h2' := ih.2 deps _ _ hvl
              simp only at h2'
              simp only [h2']
              exact eraseFirst_append_self h2
    refine ⟨hv, ?_⟩
    intro ds
    induction ds with
    | nil =>
      intro st st' h
      rw [visitList_nil] at h
      injection h with h
      subst h; rfl
    | cons d ds ihds =>
      intro st st' h
      rw [visitList_cons] at h
      cases hv' : visit g (f + 1) d st with
      | error e =>
        rw [hv'] at h
        exact Except.noConfusion h
      | ok stm =>
        rw [hv'] at h
        exact (ihds stm st' h).trans (hv d st stm hv')

-- Fuel sufficiency: with more fuel than there are registered names outside
-- the `visiting` set, the recursion never runs out of fuel, so the fuel
-- `topologicalSort` supplies makes the embedding total.

theorem fuel_sufficient (g : Graph) :
    ∀ fuel,
      (∀ n st, freeN g st.visiting < fuel → visit g fuel n st ≠ .error .fuelOut) ∧
      (∀ ds st, freeN g st.visiting < fuel → visitList g fuel ds st ≠ .error .fuelOut) := by
  intro fuel
  induction fuel with
  | zero =>
    exact ⟨fun n st hlt => absurd hlt (Nat.not_lt_zero _),
      fun ds st hlt => absurd hlt (Nat.not_lt_zero _)⟩
  | succ f ih =>
    have hv : ∀ n st, freeN g st.visiting < f + 1 → visit g (f + 1) n st ≠ .error .fuelOut := by
      intro n st hfree h
      by_cases h1 : n ∈ st.visited
      · rw [visit_hit g f h1] at h
        exact Except.noConfusion h
      · by_cases h2 : n ∈ st.visiting
        · rw [visit_cycleHit g f h1 h2] at h
          injection h with h
          exact SortError.noConfusion h
        · cases hl : lookupDeps g n with
          | none =>
            rw [visit_missing g f h1 h2 hl] at h
            injection h with h
            exact SortError.noConfusion h
          | some deps =>
            rw [visit_main g f h1 h2 hl] at h
            have hkey : n ∈ keysOf g := mem_keysOf_of_lookupDeps hl
            have hlt : freeN g (st.visiting ++ [n]) < f := by
              have := freeN_push_lt (g := g) hkey h2
              omega
            cases hvl : visitList g f deps { st with visiting := st.visiting ++ [n] } with
            | error e =>
              rw [hvl] at h
              injection h with h
              subst h
              exact ih.2 deps _ hlt hvl
            | ok st2 =>
              rw [hvl] at h
              exact Except.noConfusion h
    refine ⟨hv, ?_⟩
    intro ds
    induction ds with
    | nil =>
      intro st hfree h
      rw [visitList_nil] at h
      exact Except.noConfusion h
    | cons d ds ihds =>
      intro st hfree h
      rw [visitList_cons] at h
      cases hv' : visit g (f + 1) d st with
      | error e =>
        rw [hv'] at h
        injection h with h
        subst h
        exact hv d st hfree hv'
      | ok stm =>
        rw [hv'] at h
        have hvis : stm.visiting = st.visiting := (visiting_preserved g (f + 1)).1 d st stm hv'
        have : freeN g stm.visiting < f + 1 := by rw [hvis]; exact hfree
        exact ihds stm this h

/-- `topologicalSort` never exhausts its fuel: the artificial `.fuelOut`
outcome of the embedding is unreachable. -/
theorem topologicalSort_ne_fuelOut (g : Graph) :
    topologicalSort g ≠ .error .fuelOut := by
  intro h
  unfold topologicalSort at h
  cases hvl : visitList g (g.length + 1) (keysOf g) ⟨[], [], []⟩ with
  | error e =>
    rw [hvl] at h
    injection h with h
    subst h
    have hfree : freeN g (SortState.mk [] [] []).visiting < g.length + 1 := by
      have h1 : freeN g [] ≤ (keysOf g).length := List.length_filter_le _ _
      have h2 : (keysOf g).length = g.length := List.length_map _ _
      simp only [freeN] at h1 ⊢
      omega
    exact (fuel_sufficient g (g.length + 1)).2 (keysOf g) ⟨[], [], []⟩ hfree hvl
  | ok st =>
    rw [hvl] at h
    exact Except.noConfusion h

-- The invariant of `topologicalSort`'s state: `sorted` and `visited` are
-- pushed in lockstep, both sets are duplicate-free and disjoint, every
-- placed node is registered, and every placed node's dependencies are
-- placed strictly before it.

structure Good (g : Graph) (st : SortState) : Prop where
  sorted_eq : st.sorted = st.visited
  visited_nodup : st.visited.Nodup
  visiting_nodup : st.visiting.Nodup
  disj : ∀ x ∈ st.visiting, x ∉ st.visited
  visited_keys : ∀ x ∈ st.visited, x ∈ keysOf g
  deps_ordered : ∀ x ∈ st.visited, ∃ ds, lookupDeps g x = some ds ∧
    ∀ d ∈ ds, d ∈ st.visited ∧ idxOf st.sorted d < idxOf st.sorted x

theorem good_init (g : Graph) : Good g ⟨[], [], []⟩ := by
  refine ⟨rfl, List.nodup_nil, List.nodup_nil, ?_, ?_, ?_⟩ <;> intro x hx <;> cases hx

theorem visit_ok_good (g : Graph) :
    ∀ fuel,
      (∀ n st st', Good g st → visit g fuel n st = .ok st' →
        Good g st' ∧ (∃ new, st'.visited = st.visited ++ new) ∧ n ∈ st'.visited) ∧
      (∀ ds st st', Good g st → visitList g fuel ds st = .ok st' →
        Good g st' ∧ (∃ new, st'.visited = st.visited ++ new) ∧ ∀ d ∈ ds, d ∈ st'.visited) := by
  intro fuel
  induction fuel with
  | zero =>
    constructor
    · intro n st st' _ h
      rw [visit_zero] at h
      exact Except.noConfusion h
    · intro ds
      cases ds with
      | nil =>
        intro st st' hg h
        rw [visitList_nil] at h
        injection h with h
        subst h
        exact ⟨hg, ⟨[], (List.append_nil _).symm⟩, fun d hd => absurd hd (List.not_mem_nil d)⟩
      | cons d ds =>
        intro st st' _ h
        rw [visitList_cons] at h
        rw [visit_zero] at h
        exact Except.noConfusion h
  | succ f ih =>
    have hv : ∀ n st st', Good g st → visit g (f + 1) n st = .ok st' →
        Good g st' ∧ (∃ new, st'.visited = st.visited ++ new) ∧ n ∈ st'.visited := by
      intro n st st' hg h
      by_cases h1 : n ∈ st.visited
      · rw [visit_hit g f h1] at h
        injection h with h
        subst h
        exact ⟨hg, ⟨[], (List.append_nil _).symm⟩, h1⟩
      · by_cases h2 : n ∈ st.visiting
        · rw [visit_cycleHit g f h1 h2] at h
          exact Except.noConfusion h
        · cases hl : lookupDeps g n with
          | none =>
            rw [visit_missing g f h1 h2 hl] at h
            exact Except.noConfusion h
          | some deps =>
            rw [visit_main g f h1 h2 hl] at h
            cases hvl : visitList g f deps { st with visiting := st.visiting ++ [n] } with
            | error e =>
              rw [hvl] at h
              exact Except.noConfusion h
            | ok st2 =>
              rw [hvl] at h
              injection h with h
              subst h
              have hkey : n ∈ keysOf g := mem_keysOf_of_lookupDeps hl
              have hg1 : Good g { st with visiting := st.visiting ++ [n] } := by
                refine ⟨hg.sorted_eq, hg.visited_nodup, ?_, ?_, hg.visited_keys, hg.deps_ordered⟩
                · simp only [List.nodup_append, List.nodup_cons, List.not_mem_nil,
                    not_false_iff, List.nodup_nil, and_true, true_and, List.disjoint_singleton]
                  exact ⟨hg.visiting_nodup, h2⟩
                · intro x hx
                  rcases List.mem_append.mp hx with hx | hx
                  · exact hg.disj x hx
                  · rcases List.mem_singleton.mp hx with rfl
                    exact h1
              obtain ⟨hg2, ⟨new1, hext⟩, hdeps⟩ := ih.2 deps _ _ hg1 hvl
              have hvis2 : st2.visiting = st.visiting ++ [n] :=
                (visiting_preserved g f).2 deps _ _ hvl
              have hnv2 : n ∉ st2.visited :=
                hg2.disj n (by rw [hvis2]; exact List.mem_append_right _ (List.mem_singleton_self n))
              have hns2 : n ∉ st2.sorted := by rw [hg2.sorted_eq]; exact hnv2
              have hext' : st2.visited = st.visited ++ new1 := hext
              refine ⟨?_, ⟨new1 ++ [n], ?_⟩, ?_⟩
              · refine ⟨?_, ?_, ?_, ?_, ?_, ?_⟩
                · simp only
                  rw [hg2.sorted_eq]
                · simp only
                  simp only [List.nodup_append, List.nodup_cons, List.not_mem_nil,
                    not_false_iff, List.nodup_nil, and_true, true_and, List.disjoint_singleton]
                  exact ⟨hg2.visited_nodup, hnv2⟩
                · simp only
                  rw [hvis2, eraseFirst_append_self h2]
                  exact hg.visiting_nodup
                · simp only
                  rw [hvis2, eraseFirst_append_self h2]
                  intro x hx
                  have hx2 : x ∈ st2.visiting := by
                    rw [hvis2]; exact List.mem_append_left _ hx
                  have hxn : x ≠ n := fun hxn => h2 (hxn ▸ hx)
                  intro hmem
                  rcases List.mem_append.mp hmem with hm | hm
                  · exact hg2.disj x hx2 hm
                  · exact hxn (List.mem_singleton.mp hm)
                · simp only
                  intro x hx
                  rcases List.mem_append.mp hx with hm | hm
                  · exact hg2.visited_keys x hm
                  · rcases List.mem_singleton.mp hm with rfl
                    exact hkey
                · simp only
                  intro x hx
                  rcases List.mem_append.mp hx with hm | hm
                  · obtain ⟨ds', hds', hall⟩ := hg2.deps_ordered x hm
                    refine ⟨ds', hds', ?_⟩
                    intro d hd
                    obtain ⟨hdv, hidx⟩ := hall d hd
                    have hdsort : d ∈ st2.sorted := by rw [hg2.sorted_eq]; exact hdv
                    have hxsort : x ∈ st2.sorted := by rw [hg2.sorted_eq]; exact hm
                    refine ⟨List.mem_append_left _ hdv, ?_⟩
                    rw [idxOf_append_left _ hdsort, idxOf_append_left _ hxsort]
                    exact hidx
                  · rcases List.mem_singleton.mp hm with rfl
                    refine ⟨deps, hl, ?_⟩
                    intro d hd
                    have hdv : d ∈ st2.visited := hdeps d hd
                    have hdsort : d ∈ st2.sorted := by rw [hg2.sorted_eq]; exact hdv
                    refine ⟨List.mem_append_left _ hdv, ?_⟩
                    rw [idxOf_append_left _ hdsort, idxOf_append_self hns2]
                    exact idxOf_lt_length hdsort
              · simp only
                rw [hext', List.append_assoc]
              · simp only
                exact List.mem_append_right _ (List.mem_singleton_self n)
    refine ⟨hv, ?_⟩
    intro ds
    induction ds with
    | nil =>
      intro st st' hg h
      rw [visitList_nil] at h
      injection h with h
      subst h
      exact ⟨hg, ⟨[], (List.append_nil _).symm⟩, fun d hd => absurd hd (List.not_mem_nil d)⟩
    | cons d ds ihds =>
      intro st st' hg h
      rw [visitList_cons] at h
      cases hv' : visit g (f + 1) d st with
      | error e =>
        rw [hv'] at h
        exact Except.noConfusion h
      | ok stm =>
        rw [hv'] at h
        obtain ⟨hgm, ⟨new1, hext1⟩, hdm⟩ := hv d st stm hg hv'
        obtain ⟨hg', ⟨new2, hext2⟩, hds⟩ := ihds stm st' hgm h
        refine ⟨hg', ⟨new1 ++ new2, by rw [hext2, hext1, List.append_assoc]⟩, ?_⟩
        intro x hx
        rcases List.mem_cons.mp hx with rfl | hx
        · rw [hext2]
          exact List.mem_append_left _ hdm
        · exact hds x hx

-- Shape of the cycle error: the thrown path is the current in-progress
-- chain followed by the revisited node, so its last element occurs earlier
-- in the path.

theorem visit_cyclic_shape (g : Graph) :
    ∀ fuel,
      (∀ n st p, visit g fuel n st = .error (.cyclic p) → ∃ l m, p = l ++ [m] ∧ m ∈ l) ∧
      (∀ ds st p, visitList g fuel ds st = .error (.cyclic p) → ∃ l m, p = l ++ [m] ∧ m ∈ l) := by
  intro fuel
  induction fuel with
  | zero =>
    constructor
    · intro n st p h
      rw [visit_zero] at h
      injection h with h
      exact SortError.noConfusion h
    · intro ds
      cases ds with
      | nil =>
        intro st p h
        rw [visitList_nil] at h
        exact Except.noConfusion h
      | cons d ds =>
        intro st p h
        rw [visitList_cons, visit_zero] at h
        injection h with h
        exact SortError.noConfusion h
  | succ f ih =>
    have hv : ∀ n st p, visit g (f + 1) n st = .error (.cyclic p) →
        ∃ l m, p = l ++ [m] ∧ m ∈ l := by
      intro n st p h
      by_cases h1 : n ∈ st.visited
      · rw [visit_hit g f h1] at h
        exact Except.noConfusion h
      · by_cases h2 : n ∈ st.visiting
        · rw [visit_cycleHit g f h1 h2] at h
          injection h with h
          injection h with h
          exact ⟨st.visiting, n, h.symm, h2⟩
        · cases hl : lookupDeps g n with
          | none =>
            rw [visit_missing g f h1 h2 hl] at h
            injection h with h
            exact SortError.noConfusion h
          | some deps =>
            rw [visit_main g f h1 h2 hl] at h
            cases hvl : visitList g f deps { st with visiting := st.visiting ++ [n] } with
            | error e =>
              rw [hvl] at h
              injection h with h
              subst h
              exact ih.2 deps _ p hvl
            | ok st2 =>
              rw [hvl] at h
              exact Except.noConfusion h
    refine ⟨hv, ?_⟩
    intro ds
    induction ds with
    | nil =>
      intro st p h
      rw [visitList_nil] at h
      exact Except.noConfusion h
    | cons d ds ihds =>
      intro st p h
      rw [visitList_cons] at h
      cases hv' : visit g (f + 1) d st with
      | error e =>
        rw [hv'] at h
        injection h with h
        subst h
        exact hv d st p hv'
      | ok stm =>
        rw [hv'] at h
        exact ihds stm p h

-- Shape of the task-not-found error: the missing name is unregistered and,
-- unless it was the visited root itself, it is referenced as a dependency
-- of some registered task.

theorem visit_notFound_shape (g : Graph) :
    ∀ fuel,
      (∀ n st m, visit g fuel n st = .error (.notFound m) →
        lookupDeps g m = none ∧
          (m = n ∨ ∃ t ds, lookupDeps g t = some ds ∧ m ∈ ds)) ∧
      (∀ ds st m, visitList g fuel ds st = .error (.notFound m) →
        lookupDeps g m = none ∧
          (m ∈ ds ∨ ∃ t ds', lookupDeps g t = some ds' ∧ m ∈ ds')) := by
  intro fuel
  induction fuel with
  | zero =>
    constructor
    · intro n st m h
      rw [visit_zero] at h
      injection h with h
      exact SortError.noConfusion h
    · intro ds
      cases ds with
      | nil =>
        intro st m h
        rw [visitList_nil] at h
        exact Except.noConfusion h
      | cons d ds =>
        intro st m h
        rw [visitList_cons, visit_zero] at h
        injection h with h
        exact SortError.noConfusion h
  | succ f ih =>
    have hv : ∀ n st m, visit g (f + 1) n st = .error (.notFound m) →
        lookupDeps g m = none ∧
          (m = n ∨ ∃ t ds, lookupDeps g t = some ds ∧ m ∈ ds) := by
      intro n st m h
      by_cases h1 : n ∈ st.visited
      · rw [visit_hit g f h1] at h
        exact Except.noConfusion h
      · by_cases h2 : n ∈ st.visiting
        · rw [visit_cycleHit g f h1 h2] at h
          injection h with h
          exact SortError.noConfusion h
        · cases hl : lookupDeps g n with
          | none =>
            rw [visit_missing g f h1 h2 hl] at h
            injection h with h
            injection h with h
            subst h
            exact ⟨hl, Or.inl rfl⟩
          | some deps =>
            rw [visit_main g f h1 h2 hl] at h
            cases hvl : visitList g f deps { st with visiting := st.visiting ++ [n] } with
            | error e =>
              rw [hvl] at h
              injection h with h
              subst h
              obtain ⟨hnone, href⟩ := ih.2 deps _ m hvl
              refine ⟨hnone, Or.inr ?_⟩
              rcases href with hm | ⟨t, ds', ht, hm⟩
              · exact ⟨n, deps, hl, hm⟩
              · exact ⟨t, ds', ht, hm⟩
            | ok st2 =>
              rw [hvl] at h
              exact Except.noConfusion h
    refine ⟨hv, ?_⟩
    intro ds
    induction ds with
    | nil =>
      intro st m h
      rw [visitList_nil] at h
      exact Except.noConfusion h
    | cons d ds ihds =>
      intro st m h
      rw [visitList_cons] at h
      cases hv' : visit g (f + 1) d st with
      | error e =>
        rw [hv'] at h
        injection h with h
        subst h
        obtain ⟨hnone, href⟩ := hv d st m hv'
        refine ⟨hnone, ?_⟩
        rcases href with rfl | hr
        · exact Or.inl (List.mem_cons_self _ _)
        · exact Or.inr hr
      | ok stm =>
        rw [hv'] at h
        obtain ⟨hnone, href⟩ := ihds stm m h
        refine ⟨hnone, ?_⟩
        rcases href with hm | hr
        · exact Or.inl (List.mem_cons_of_mem _ hm)
        · exact Or.inr hr

-- Top-level corollaries about `topologicalSort`.

/-- On success, the plan is duplicate-free, contains exactly the registered
names, and places every task's declared dependencies strictly before it. -/
theorem sort_ok_spec {g : Graph} {plan : List String}
    (h : topologicalSort g = .ok plan) :
    plan.Nodup ∧ (∀ x ∈ plan, x ∈ keysOf g) ∧ (∀ k ∈ keysOf g, k ∈ plan) ∧
    ∀ x ∈ plan, ∃ ds, lookupDeps g x = some ds ∧
      ∀ d ∈ ds, d ∈ plan ∧ idxOf plan d < idxOf plan x := by
  unfold topologicalSort at h
  cases hvl : visitList g (g.length + 1) (keysOf g) ⟨[], [], []⟩ with
  | error e =>
    rw [hvl] at h
    exact Except.noConfusion h
  | ok st =>
    rw [hvl] at h
    injection h with h
    obtain ⟨hg, ⟨new, hext⟩, hall⟩ :=
      (visit_ok_good g (g.length + 1)).2 (keysOf g) _ _ (good_init g) hvl
    have hplan : plan = st.visited := by rw [← h, hg.sorted_eq]
    subst hplan
    refine ⟨hg.visited_nodup, hg.visited_keys, hall, ?_⟩
    intro x hx
    obtain ⟨ds, hds, hrest⟩ := hg.deps_ordered x hx
    refine ⟨ds, hds, ?_⟩
    intro d hd
    obtain ⟨hdm, hidx⟩ := hrest d hd
    rw [hg.sorted_eq] at hidx
    exact ⟨hdm, hidx⟩

/-- On success the plan is a permutation of the registered names
(assuming, as for a JS `Map`, that the registered names are distinct). -/
theorem sort_ok_perm {g : Graph} {plan : List String}
    (hnd : (keysOf g).Nodup) (h : topologicalSort g = .ok plan) :
    plan.Perm (keysOf g) := by
  obtain ⟨hpnd, hsub, hsup, _⟩ := sort_ok_spec h
  exact (List.perm_ext_iff_of_nodup hpnd hnd).mpr fun a => ⟨hsub a, hsup a⟩

/-- On success, every transitive dependency of a planned task appears
strictly before it in the plan. -/
theorem sort_ok_depOn {g : Graph} {plan : List String}
    (h : topologicalSort g = .ok plan) :
    ∀ t d, DepOn g t d → t ∈ plan ∧ d ∈ plan ∧ idxOf plan d < idxOf plan t := by
  intro t d hdep
  induction hdep with
  | @direct t' d' ds hlook hmem =>
    obtain ⟨_, _, hsup, hord⟩ := sort_ok_spec h
    have htp : t' ∈ plan := hsup t' (mem_keysOf_of_lookupDeps hlook)
    obtain ⟨ds', hds', hrest⟩ := hord t' htp
    rw [hlook] at hds'
    injection hds' with hds'
    subst hds'
    obtain ⟨hdm, hidx⟩ := hrest d' hmem
    exact ⟨htp, hdm, hidx⟩
  | @step t' m d' ds hlook hmem _ ihm =>
    obtain ⟨_, _, hsup, hord⟩ := sort_ok_spec h
    have htp : t' ∈ plan := hsup t' (mem_keysOf_of_lookupDeps hlook)
    obtain ⟨ds', hds', hrest⟩ := hord t' htp
    rw [hlook] at hds'
    injection hds' with hds'
    subst hds'
    obtain ⟨hmm, hmidx⟩ := hrest m hmem
    obtain ⟨_, hdp, hdidx⟩ := ihm
    exact ⟨htp, hdp, Nat.lt_trans hdidx hmidx⟩

/-- A graph with a dependency cycle never sorts successfully. -/
theorem sort_cyclic_fails {g : Graph} {t : String} (hc : DepOn g t t) :
    ∀ plan, topologicalSort g ≠ .ok plan := by
  intro plan h
  obtain ⟨_, _, hlt⟩ := sort_ok_depOn h t t hc
  exact Nat.lt_irrefl _ hlt

/-- A graph in which a registered task references an unregistered
dependency never sorts successfully. -/
theorem sort_missing_fails {g : Graph} {t d : String} {ds : List String}
    (ht : lookupDeps g t = some ds) (hd : d ∈ ds)
    (hmiss : lookupDeps g d = none) :
    ∀ plan, topologicalSort g ≠ .ok plan := by
  intro plan h
  obtain ⟨_, hdp, _⟩ := sort_ok_depOn h t d (DepOn.direct ht hd)
  obtain ⟨_, hsub, _, _⟩ := sort_ok_spec h
  obtain ⟨ds', hds'⟩ := lookupDeps_isSome_of_mem (hsub d hdp)
  rw [hmiss] at hds'
  exact Option.noConfusion hds'

/-- Every `topologicalSort` failure is a cycle error or a task-not-found
error (the fuel artifact never occurs). -/
theorem sort_error_cases {g : Graph} {e : SortError}
    (h : topologicalSort g = .error e) :
    (∃ p, e = .cyclic p) ∨ ∃ m, e = .notFound m := by
  cases e with
  | cyclic p => exact Or.inl ⟨p, rfl⟩
  | notFound m => exact Or.inr ⟨m, rfl⟩
  | fuelOut => exact absurd h (topologicalSort_ne_fuelOut g)

/-- The path of every cycle error ends in a node that occurs earlier in the
path (it is the in-progress chain followed by the revisited node). -/
theorem sort_cyclic_path_shape {g : Graph} {p : List String}
    (h : topologicalSort g = .error (.cyclic p)) :
    ∃ l m, p = l ++ [m] ∧ m ∈ l := by
  unfold topologicalSort at h
  cases hvl : visitList g (g.length + 1) (keysOf g) ⟨[], [], []⟩ with
  | error e =>
    rw [hvl] at h
    injection h with h
    subst h
    exact (visit_cyclic_shape g (g.length + 1)).2 _ _ _ hvl
  | ok st =>
    rw [hvl] at h
    exact Except.noConfusion h

/-- Every task-not-found error names a name that is unregistered and
referenced as a dependency of some registered task. -/
theorem sort_notFound_shape {g : Graph} {m : String}
    (h : topologicalSort g = .error (.notFound m)) :
    lookupDeps g m = none ∧ ∃ t ds, lookupDeps g t = some ds ∧ m ∈ ds := by
  unfold topologicalSort at h
  cases hvl : visitList g (g.length + 1) (keysOf g) ⟨[], [], []⟩ with
  | error e =>
    rw [hvl] at h
    injection h with h
    subst h
    obtain ⟨hnone, href⟩ := (visit_notFound_shape g (g.length + 1)).2 _ _ _ hvl
    refine ⟨hnone, ?_⟩
    rcases href with hm | hr
    · exact absurd hm (lookupDeps_eq_none_iff.mp hnone)
    · exact hr
  | ok st =>
    rw [hvl] at h
    exact Except.noConfusion h

-- Execution layer: `TaskGraph.execute` and `TaskGraph.executeParallel`.
-- A task's action is abstracted by its outcome (`.ok ()` for a normal
-- return, `.error e` for a throw with message `e`); the invoked-task trace
-- is returned alongside the result so that "this action was (not) run" is
-- part of the observable behaviour.

instance {e : Type} {a : Type} [DecidableEq e] [DecidableEq a] :
    DecidableEq (Except e a) := fun x y =>
  match x, y with
  | .error u, .error v =>
    if h : u = v then .isTrue (h ▸ rfl)
    else .isFalse fun hc => h (Except.error.inj hc)
  | .ok u, .ok v =>
    if h : u = v then .isTrue (h ▸ rfl)
    else .isFalse fun hc => h (Except.ok.inj hc)
  | .error _, .ok _ => .isFalse fun hc => Except.noConfusion hc
  | .ok _, .error _ => .isFalse fun hc => Except.noConfusion hc

/-- A registered `TaskDescriptor`: name, declared dependencies, and the
action abstracted by its outcome. -/
structure ETask where
  name : String
  dependencies : List String
  action : Except String Unit
  deriving Repr, DecidableEq

/-- The dependency graph of a task map (what `topologicalSort` reads). -/
def graphOf (ts : List ETask) : Graph :=
  ts.map fun t => (t.name, t.dependencies)

/-- `this.#tasks.get(name)` on the task map. -/
def findTask : List ETask → String → Option ETask
  | [], _ => none
  | t :: ts, n => if t.name = n then some t else findTask ts n

/-- Errors surfaced by `execute`/`executeParallel`: a structural error from
plan computation, the (unreachable) crash of `this.get(name)!` on a name
missing from the map, or an `AggregateError` with its message and the list
of wrapped causes. -/
inductive ExecError where
  | structural (e : SortError)
  | lookupFailed (name : String)
  | aggregate (message : String) (causes : List String)
  deriving Repr, DecidableEq

/-- The sequential loop of `TaskGraph.execute`: runs planned tasks one at a
time, stopping at the first throw, which it wraps as
`AggregateError([error], `Task "name" failed`)`.  Returns the list of
invoked task names and the outcome. -/
def runSeq (ts : List ETask) : List String → List String × Except ExecError Unit
  | [] => ([], .ok ())
  | n :: rest =>
    match findTask ts n with
    | none => ([], .error (.lookupFailed n))
    | some t =>
      match t.action with
      | .ok () =>
        let r := runSeq ts rest
        (n :: r.1, r.2)
      | .error e => ([n], .error (.aggregate ("Task \"" ++ n ++ "\" failed") [e]))

/-- `TaskGraph.execute`: plan, then run sequentially; a structural error
aborts before any action runs. -/
def execute (ts : List ETask) : List String × Except ExecError Unit :=
  match topologicalSort (graphOf ts) with
  | .error e => ([], .error (.structural e))
  | .ok plan => runSeq ts plan

/-- Lookup of a settled unit result by task name (`taskPromises.get`). -/
def lookupUnit : List (String × Except String Unit) → String → Option (Except String Unit)
  | [], _ => none
  | (k, u) :: rest, n => if k = n then some u else lookupUnit rest n

/-- `await Promise.all(dependencyPromises)` over already-settled
dependency units: the first rejected dependency's reason, if any.  A
dependency absent from the map (`taskPromises.get(dep)` returning
`undefined`) counts as fulfilled, exactly as `Promise.all` treats a
non-promise element. -/
def firstDepError (settled : List (String × Except String Unit)) : List String → Option String
  | [] => none
  | d :: ds =>
    match lookupUnit settled d with
    | some (.error e) => some e
    | _ => firstDepError settled ds

/-- The dataflow of `executeParallel`'s units, in plan order: each task's
unit either rejects with its first rejected dependency's reason (its action
never runs) or runs its action.  Accumulates the settled units and the
names whose actions were invoked; a name missing from the task map aborts
the whole call (`this.get(name)!`). -/
def parSettle (ts : List ETask) :
    List String → List (String × Except String Unit) → List String →
    Except String (List (String × Except String Unit) × List String)
  | [], settled, invoked => .ok (settled, invoked)
  | n :: rest, settled, invoked =>
    match findTask ts n with
    | none => .error n
    | some t =>
      match firstDepError settled t.dependencies with
      | some e => parSettle ts rest (settled ++ [(n, .error e)]) invoked
      | none => parSettle ts rest (settled ++ [(n, t.action)]) (invoked ++ [n])

/-- The rejection reasons among the settled units, in settlement order
(`settled.filter(isRejected).map(r => r.reason)`). -/
def causesOf (settled : List (String × Except String Unit)) : List String :=
  settled.filterMap fun p =>
    match p.2 with
    | .error e => some e
    | .ok _ => none

/-- `TaskGraph.executeParallel`: plan, settle every unit, then either
succeed or throw one `AggregateError` listing every rejection reason. -/
def executeParallel (ts : List ETask) : List String × Except ExecError Unit :=
  match topologicalSort (graphOf ts) with
  | .error e => ([], .error (.structural e))
  | .ok plan =>
    match parSettle ts plan [] [] with
    | .error n => ([], .error (.lookupFailed n))
    | .ok (settled, invoked) =>
      let causes := causesOf settled
      (invoked,
        if causes.isEmpty then .ok ()
        else .error (.aggregate (toString causes.length ++ " tasks failed") causes))

-- Correspondence between the task map and the graph `topologicalSort` reads.

theorem keysOf_graphOf (ts : List ETask) :
    keysOf (graphOf ts) = ts.map ETask.name := by
  simp [keysOf, graphOf, List.map_map, Function.comp]

theorem findTask_name {ts : List ETask} {n : String} {t : ETask}
    (h : findTask ts n = some t) : t.name = n := by
  induction ts with
  | nil => exact Option.noConfusion h
  | cons t0 ts ih =>
    by_cases h0 : t0.name = n
    · simp only [findTask, if_pos h0, Option.some.injEq] at h
      subst h
      exact h0
    · simp only [findTask, if_neg h0] at h
      exact ih h

theorem lookupDeps_graphOf (ts : List ETask) (n : String) :
    lookupDeps (graphOf ts) n = (findTask ts n).map ETask.dependencies := by
  induction ts with
  | nil => rfl
  | cons t0 ts ih =>
    by_cases h0 : t0.name = n
    · simp [graphOf, lookupDeps, findTask, h0]
    · simp only [graphOf, List.map_cons, lookupDeps, findTask, if_neg h0]
      exact ih

theorem lookupDeps_entry_mem {g : Graph} {n : String} {ds : List String}
    (h : lookupDeps g n = some ds) : (n, ds) ∈ g := by
  induction g with
  | nil => exact Option.noConfusion h
  | cons p g ih =>
    obtain ⟨k, ds'⟩ := p
    by_cases hk : k = n
    · subst hk
      simp only [lookupDeps, if_true, eq_self_iff_true, Option.some.injEq] at h
      subst h
      exact List.mem_cons_self _ _
    · simp only [lookupDeps, if_neg hk] at h
      exact List.mem_cons_of_mem _ (ih h)

theorem findTask_of_mem_nodup {ts : List ETask} {t : ETask}
    (hnd : (ts.map ETask.name).Nodup) (hmem : t ∈ ts) :
    findTask ts t.name = some t := by
  induction ts with
  | nil => cases hmem
  | cons t0 ts ih =>
    rcases List.mem_cons.mp hmem with rfl | hmem'
    · simp [findTask]
    · have hnd' : t0.name ∉ ts.map ETask.name ∧ (ts.map ETask.name).Nodup := by
        rw [List.map_cons] at hnd
        exact ⟨(List.nodup_cons.mp hnd).1, (List.nodup_cons.mp hnd).2⟩
      have hne : t0.name ≠ t.name := by
        intro he
        exact hnd'.1 (he ▸ List.mem_map_of_mem ETask.name hmem')
      simp only [findTask, if_neg hne]
      exact ih hnd'.2 hmem'

-- The sequential loop.

theorem runSeq_ok_append {ts : List ETask} {pre : List String}
    (hpre : ∀ n ∈ pre, ∃ t, findTask ts n = some t ∧ t.action = .ok ())
    (rest : List String) :
    runSeq ts (pre ++ rest) = (pre ++ (runSeq ts rest).1, (runSeq ts rest).2) := by
  induction pre with
  | nil => simp
  | cons n pre ih =>
    obtain ⟨t, hft, hact⟩ := hpre n (List.mem_cons_self _ _)
    have ih' := ih fun m hm => hpre m (List.mem_cons_of_mem _ hm)
    simp only [List.cons_append, runSeq, hft, hact, List.append_eq, ih']

theorem runSeq_fail {ts : List ETask} {B : String} {tB : ETask} {e : String}
    (hB : findTask ts B = some tB) (hact : tB.action = .error e)
    (post : List String) :
    runSeq ts (B :: post) =
      ([B], .error (.aggregate ("Task \"" ++ B ++ "\" failed") [e])) := by
  simp only [runSeq, hB, hact]

-- The parallel dataflow.

theorem parSettle_cons_missing {ts : List ETask} {n : String}
    (l : List String) (settled : List (String × Except String Unit))
    (invoked : List String) (hft : findTask ts n = none) :
    parSettle ts (n :: l) settled invoked = .error n := by
  simp [parSettle, hft]

theorem parSettle_cons_depErr {ts : List ETask} {n : String} {t : ETask}
    {e : String} (l : List String) (settled : List (String × Except String Unit))
    (invoked : List String) (hft : findTask ts n = some t)
    (hfd : firstDepError settled t.dependencies = some e) :
    parSettle ts (n :: l) settled invoked =
      parSettle ts l (settled ++ [(n, .error e)]) invoked := by
  simp [parSettle, hft, hfd]

theorem parSettle_cons_run {ts : List ETask} {n : String} {t : ETask}
    (l : List String) (settled : List (String × Except String Unit))
    (invoked : List String) (hft : findTask ts n = some t)
    (hfd : firstDepError settled t.dependencies = none) :
    parSettle ts (n :: l) settled invoked =
      parSettle ts l (settled ++ [(n, t.action)]) (invoked ++ [n]) := by
  simp [parSettle, hft, hfd]

theorem parSettle_append (ts : List ETask) (a b : List String)
    (settled : List (String × Except String Unit)) (invoked : List String) :
    parSettle ts (a ++ b) settled invoked =
      match parSettle ts a settled invoked with
      | .error n => .error n
      | .ok (s, i) => parSettle ts b s i := by
  induction a generalizing settled invoked with
  | nil => simp [parSettle]
  | cons n a ih =>
    rw [List.cons_append]
    cases hft : findTask ts n with
    | none =>
      rw [parSettle_cons_missing (a ++ b) settled invoked hft,
        parSettle_cons_missing a settled invoked hft]
    | some t =>
      cases hfd : firstDepError settled t.dependencies with
      | some e =>
        rw [parSettle_cons_depErr (a ++ b) settled invoked hft hfd,
          parSettle_cons_depErr a settled invoked hft hfd]
        exact ih _ _
      | none =>
        rw [parSettle_cons_run (a ++ b) settled invoked hft hfd,
          parSettle_cons_run a settled invoked hft hfd]
        exact ih _ _

theorem parSettle_ok_names {ts : List ETask} {rest : List String}
    {settled sF : List (String × Except String Unit)} {invoked iF : List String}
    (h : parSettle ts rest settled invoked = .ok (sF, iF)) :
    sF.map Prod.fst = settled.map Prod.fst ++ rest ∧
    ∃ inew, iF = invoked ++ inew ∧ ∀ x ∈ inew, x ∈ rest := by
  induction rest generalizing settled invoked with
  | nil =>
    simp only [parSettle, Except.ok.injEq, Prod.mk.injEq] at h
    obtain ⟨rfl, rfl⟩ := h
    exact ⟨by simp, [], by simp, fun x hx => absurd hx (List.not_mem_nil x)⟩
  | cons n rest ih =>
    cases hft : findTask ts n with
    | none =>
      rw [parSettle_cons_missing rest settled invoked hft] at h
      exact Except.noConfusion h
    | some t =>
      cases hfd : firstDepError settled t.dependencies with
      | some e =>
        rw [parSettle_cons_depErr rest settled invoked hft hfd] at h
        obtain ⟨hnames, inew, hinv, hsub⟩ := ih h
        refine ⟨by simpa using hnames, inew, hinv, ?_⟩
        exact fun x hx => List.mem_cons_of_mem _ (hsub x hx)
      | none =>
        rw [parSettle_cons_run rest settled invoked hft hfd] at h
        obtain ⟨hnames, inew, hinv, hsub⟩ := ih h
        refine ⟨by simpa using hnames, n :: inew, by simpa using hinv, ?_⟩
        intro x hx
        rcases List.mem_cons.mp hx with rfl | hx
        · exact List.mem_cons_self _ _
        · exact List.mem_cons_of_mem _ (hsub x hx)

-- Settled-unit lookups.

theorem lookupUnit_eq_none_iff {s : List (String × Except String Unit)} {x : String} :
    lookupUnit s x = none ↔ x ∉ s.map Prod.fst := by
  induction s with
  | nil => simp [lookupUnit]
  | cons p s ih =>
    obtain ⟨k, u⟩ := p
    by_cases hk : k = x
    · subst hk
      simp [lookupUnit]
    · have hxk : ¬ x = k := fun h => hk h.symm
      simp only [lookupUnit, if_neg hk, List.map_cons, List.mem_cons, ih]
      simp [hxk]

theorem lookupUnit_append_some {s r : List (String × Except String Unit)}
    {x : String} {u : Except String Unit} (h : lookupUnit s x = some u) :
    lookupUnit (s ++ r) x = some u := by
  induction s with
  | nil => exact Option.noConfusion h
  | cons p s ih =>
    obtain ⟨k, v⟩ := p
    by_cases hk : k = x
    · subst hk
      simpa [lookupUnit] using h
    · simp only [lookupUnit, if_neg hk] at h ⊢
      exact ih h

theorem lookupUnit_append_right {s r : List (String × Except String Unit)}
    {x : String} (h : x ∉ s.map Prod.fst) :
    lookupUnit (s ++ r) x = lookupUnit r x := by
  induction s with
  | nil => rfl
  | cons p s ih =>
    obtain ⟨k, v⟩ := p
    simp only [List.map_cons, List.mem_cons] at h
    push_neg at h
    have hk : k ≠ x := fun he => h.1 he.symm
    simp only [List.cons_append, lookupUnit, if_neg hk]
    exact ih h.2

theorem lookupUnit_mem {s : List (String × Except String Unit)}
    {x : String} {u : Except String Unit} (h : lookupUnit s x = some u) :
    (x, u) ∈ s := by
  induction s with
  | nil => exact Option.noConfusion h
  | cons p s ih =>
    obtain ⟨k, v⟩ := p
    by_cases hk : k = x
    · subst hk
      simp only [lookupUnit, if_true, eq_self_iff_true, Option.some.injEq] at h
      subst h
      exact List.mem_cons_self _ _
    · simp only [lookupUnit, if_neg hk] at h
      exact List.mem_cons_of_mem _ (ih h)

theorem firstDepError_spec {sF s1 : List (String × Except String Unit)}
    (hpre : ∀ x u, lookupUnit s1 x = some u → lookupUnit sF x = some u)
    {ds : List String} {d : String} {e : String} (hd : d ∈ ds)
    (hde : lookupUnit s1 d = some (.error e))
    (hothers : ∀ d' ∈ ds, d' ≠ d → ∀ e', lookupUnit sF d' ≠ some (.error e')) :
    firstDepError s1 ds = some e := by
  induction ds with
  | nil => cases hd
  | cons d' ds ih =>
    by_cases hdd : d' = d
    · subst hdd
      simp [firstDepError, hde]
    · have hd2 : d ∈ ds := by
        rcases List.mem_cons.mp hd with rfl | hm
        · exact absurd rfl hdd
        · exact hm
      have hothers' : ∀ d'' ∈ ds, d'' ≠ d → ∀ e', lookupUnit sF d'' ≠ some (.error e') :=
        fun d'' hm => hothers d'' (List.mem_cons_of_mem _ hm)
      cases hlu : lookupUnit s1 d' with
      | none =>
        simp only [firstDepError, hlu]
        exact ih hd2 hothers'
      | some u =>
        cases u with
        | ok v =>
          simp only [firstDepError, hlu]
          exact ih hd2 hothers'
        | error e' =>
          exact absurd (hpre d' _ hlu) (hothers d' (List.mem_cons_self _ _) hdd e')

-- Rejection reasons.

theorem causesOf_append (a b : List (String × Except String Unit)) :
    causesOf (a ++ b) = causesOf a ++ causesOf b := by
  simp [causesOf, List.filterMap_append]

theorem mem_causesOf {s : List (String × Except String Unit)} {x : String}
    {e : String} (h : (x, .error e) ∈ s) : e ∈ causesOf s := by
  simp only [causesOf, List.mem_filterMap]
  exact ⟨(x, .error e), h, rfl⟩

-- A graph whose tasks declare no dependencies sorts to its insertion order.

theorem visitList_noDeps {g : Graph} {ks : List String} :
    ∀ (st : SortState) (fuel : Nat),
      (∀ k ∈ ks, lookupDeps g k = some []) → ks.Nodup →
      (∀ k ∈ ks, k ∉ st.visited) → st.visiting = [] →
      visitList g (fuel + 1) ks st =
        .ok ⟨st.sorted ++ ks, st.visited ++ ks, []⟩ := by
  induction ks with
  | nil =>
    intro st fuel _ _ _ hvis
    rw [visitList_nil]
    cases st with
    | mk sorted visited visiting =>
      simp only at hvis
      subst hvis
      simp
  | cons k ks ih =>
    intro st fuel hlook hnd hdis hvis
    have hk1 : k ∉ st.visited := hdis k (List.mem_cons_self _ _)
    have hk2 : k ∉ st.visiting := by rw [hvis]; exact List.not_mem_nil k
    have hkl : lookupDeps g k = some [] := hlook k (List.mem_cons_self _ _)
    rw [visitList_cons, visit_main g fuel hk1 hk2 hkl, visitList_nil]
    have herase : eraseFirst (st.visiting ++ [k]) k = [] := by
      rw [hvis]
      simp [eraseFirst]
    simp only [herase]
    have hnd' := List.nodup_cons.mp hnd
    have hstep := ih ⟨st.sorted ++ [k], st.visited ++ [k], []⟩ fuel
      (fun k' hk' => hlook k' (List.mem_cons_of_mem _ hk'))
      hnd'.2
      (fun k' hk' => by
        simp only [List.mem_append, List.mem_singleton]
        rintro (hm | rfl)
        · exact hdis k' (List.mem_cons_of_mem _ hk') hm
        · exact hnd'.1 hk')
      rfl
    simp only at hstep
    rw [hstep]
    simp

theorem sort_noDeps {g : Graph} (hall : ∀ p ∈ g, p.2 = ([] : List String))
    (hnd : (keysOf g).Nodup) :
    topologicalSort g = .ok (keysOf g) := by
  have hlook : ∀ k ∈ keysOf g, lookupDeps g k = some [] := by
    intro k hk
    obtain ⟨ds, hds⟩ := lookupDeps_isSome_of_mem hk
    have := hall (k, ds) (lookupDeps_entry_mem hds)
    simp only at this
    rw [hds, this]
  unfold topologicalSort
  rw [visitList_noDeps ⟨[], [], []⟩ g.length hlook hnd
    (fun k _ => List.not_mem_nil k) rfl]
  simp

-- `parSettle` over a dependency-free task list invokes every action.

theorem parSettle_noDeps {ts : List ETask} :
    ∀ (sub : List ETask), (∀ t ∈ sub, findTask ts t.name = some t) →
      (∀ t ∈ sub, t.dependencies = []) →
      ∀ settled invoked,
        parSettle ts (sub.map ETask.name) settled invoked =
          .ok (settled ++ sub.map fun t => (t.name, t.action),
            invoked ++ sub.map ETask.name) := by
  intro sub
  induction sub with
  | nil =>
    intro _ _ settled invoked
    simp [parSettle]
  | cons t sub ih =>
    intro hft hdeps settled invoked
    have hft0 : findTask ts t.name = some t := hft t (List.mem_cons_self _ _)
    have hfd : firstDepError settled t.dependencies = none := by
      rw [hdeps t (List.mem_cons_self _ _)]
      rfl
    rw [List.map_cons, parSettle_cons_run _ _ _ hft0 hfd]
    rw [ih (fun u hu => hft u (List.mem_cons_of_mem _ hu))
      (fun u hu => hdeps u (List.mem_cons_of_mem _ hu))]
    simp

/-- The rejection reasons a dependency-free run produces: the errors of the
failing actions, in order. -/
def actionErrors (ts : List ETask) : List String :=
  ts.filterMap fun t =>
    match t.action with
    | .error e => some e
    | .ok _ => none

theorem causesOf_actions (ts : List ETask) :
    causesOf (ts.map fun t => (t.name, t.action)) = actionErrors ts := by
  rw [causesOf, List.filterMap_map]
  rfl

-- Retry-validating task wrapper (`createJsonTask`).  The completion port
-- is abstracted as a call-indexed stream of outcomes (a transport failure,
-- or a reply with its content and completion-token count); `JSON.parse`
-- and the compiled AJV validator are abstracted as the functions `parse`,
-- `valid` and `errMsg` (first validation error message, if any).

/-- A chat message of the private task conversation. -/
structure Msg where
  role : String
  content : String
  deriving Repr, DecidableEq

/-- An annotation-store entry (`DataItem`): the decoded content and the
completion-token count it is tagged with. -/
structure DataItem (J : Type) where
  content : J
  size : Option Nat
  deriving Repr, DecidableEq

/-- `message.set(key, val, size)`: replace in place or append. -/
def setData {J : Type} : List (String × DataItem J) → String → DataItem J →
    List (String × DataItem J)
  | [], k, v => [(k, v)]
  | (k', v') :: rest, k, v =>
    if k' = k then (k', v) :: rest else (k', v') :: setData rest k v

/-- One completion-port call's outcome: a thrown transport error with its
message, or a response with raw content and completion-token count. -/
inductive PortEvent where
  | fail (msg : String)
  | reply (content : String) (completionTokens : Nat)
  deriving Repr, DecidableEq

/-- The parameters of one `createJsonTask` invocation. -/
structure JsonTaskEnv (J : Type) where
  key : String
  port : Nat → PortEvent
  parse : String → Option J
  valid : J → Bool
  errMsg : J → Option String
  system : String
  maxTries : Nat

/-- The inner `complete()` of `createJsonTask`: one port call, response
pushed onto the private conversation, then JSON parse and schema
validation; on success the decoded value is written to the message's
annotation store under the task key, tagged with `usage.completion`.
Returns the updated private conversation, the updated store, and the
outcome (`.error` carries the thrown error's message). -/
def completeOnce {J : Type} (env : JsonTaskEnv J) (calls : Nat)
    (inner : List Msg) (data : List (String × DataItem J)) :
    List Msg × List (String × DataItem J) × Except String Unit :=
  match env.port calls with
  | .fail m => (inner, data, .error m)
  | .reply c toks =>
    let inner' := inner ++ [⟨"assistant", c⟩]
    match env.parse c with
    | none => (inner', data, .error "Message is not valid JSON")
    | some j =>
      if env.valid j then
        (inner', setData data env.key ⟨j, some toks⟩, .ok ())
      else
        (inner', data, .error ((env.errMsg j).getD "Invalid JSON"))

/-- The retry loop of `createJsonTask` (`for (let i = 0; i < maxTries; i++)`):
every thrown error — transport, parse or validation alike — is caught, fed
back into the private conversation as a user turn, and retried; after
`maxTries` failed attempts the retries-exhausted error is thrown.
Returns (number of port calls made, private conversation, store, outcome). -/
def jsonLoop {J : Type} (env : JsonTaskEnv J) :
    Nat → Nat → List Msg → List (String × DataItem J) →
    Nat × List Msg × List (String × DataItem J) × Except String Unit
  | 0, calls, inner, data =>
    (calls, inner, data,
      .error ("Unable to parse response after " ++ toString env.maxTries ++ " tries"))
  | n + 1, calls, inner, data =>
    match completeOnce env calls inner data with
    | (inner', data', .ok _) => (calls + 1, inner', data', .ok ())
    | (inner', data', .error m) =>
      jsonLoop env n (calls + 1)
        (inner' ++
          [⟨"user", "Unable to parse response. Please fix the error and try again.\n\nError: " ++ m⟩])
        data'

/-- The observable outcome of one invocation of the task returned by
`createJsonTask`. -/
structure JsonRun (J : Type) where
  calls : Nat
  inner : List Msg
  data : List (String × DataItem J)
  result : Except String Unit
  deriving Repr

/-- One invocation of the task `createJsonTask` returns: a fresh private
conversation is created from the system instruction and the message's
content, the retry loop runs, and the caller-visible shared context is
returned untouched (the task never references it). -/
def runJsonTask {J : Type} (env : JsonTaskEnv J) (content : String)
    (data0 : List (String × DataItem J)) (shared : List Msg) :
    JsonRun J × List Msg :=
  let inner0 : List Msg := [⟨"system", env.system⟩, ⟨"user", content⟩]
  let r := jsonLoop env env.maxTries 0 inner0 data0
  (⟨r.1, r.2.1, r.2.2.1, r.2.2.2⟩, shared)

/-- The outcome of attempt `k` depends only on the call index: the port's
event, then parse, then validation. -/
def attemptOutcome {J : Type} (env : JsonTaskEnv J) (k : Nat) :
    Except String (J × Nat) :=
  match env.port k with
  | .fail m => .error m
  | .reply c toks =>
    match env.parse c with
    | none => .error "Message is not valid JSON"
    | some j =>
      if env.valid j then .ok (j, toks)
      else .error ((env.errMsg j).getD "Invalid JSON")

theorem completeOnce_err {J : Type} {env : JsonTaskEnv J} {calls : Nat}
    {m : String} (h : attemptOutcome env calls = .error m)
    (inner : List Msg) (data : List (String × DataItem J)) :
    ∃ ext, completeOnce env calls inner data = (inner ++ ext, data, .error m) := by
  cases hp : env.port calls with
  | fail m' =>
    simp only [attemptOutcome, hp, Except.error.injEq] at h
    subst h
    exact ⟨[], by simp [completeOnce, hp]⟩
  | reply c toks =>
    cases hj : env.parse c with
    | none =>
      simp only [attemptOutcome, hp, hj, Except.error.injEq] at h
      subst h
      exact ⟨[⟨"assistant", c⟩], by simp [completeOnce, hp, hj]⟩
    | some j =>
      by_cases hv : env.valid j
      · simp only [attemptOutcome, hp, hj, hv, if_true] at h
        exact Except.noConfusion h
      · simp only [attemptOutcome, hp, hj] at h
        rw [if_neg hv] at h
        injection h with h
        subst h
        exact ⟨[⟨"assistant", c⟩], by simp [completeOnce, hp, hj, if_neg hv]⟩

theorem completeOnce_ok {J : Type} {env : JsonTaskEnv J} {calls : Nat}
    {j : J} {toks : Nat} (h : attemptOutcome env calls = .ok (j, toks))
    (inner : List Msg) (data : List (String × DataItem J)) :
    ∃ ext, completeOnce env calls inner data =
      (inner ++ ext, setData data env.key ⟨j, some toks⟩, .ok ()) := by
  cases hp : env.port calls with
  | fail m' =>
    simp only [attemptOutcome, hp] at h
    exact Except.noConfusion h
  | reply c toks' =>
    cases hj : env.parse c with
    | none =>
      simp only [attemptOutcome, hp, hj] at h
      exact Except.noConfusion h
    | some j' =>
      by_cases hv : env.valid j'
      · simp only [attemptOutcome, hp, hj, hv, if_true] at h
        injection h with h
        have hj2 : j' = j := congrArg Prod.fst h
        have ht2 : toks' = toks := congrArg Prod.snd h
        subst hj2
        subst ht2
        exact ⟨[⟨"assistant", c⟩], by simp [completeOnce, hp, hj, hv]⟩
      · simp only [attemptOutcome, hp, hj] at h
        rw [if_neg hv] at h
        exact Except.noConfusion h

-- Retry-loop facts.

theorem attemptOutcome_fail {J : Type} {env : JsonTaskEnv J} {k : Nat}
    {m : String} (hp : env.port k = .fail m) :
    attemptOutcome env k = .error m := by
  simp [attemptOutcome, hp]

theorem jsonLoop_calls_mono {J : Type} (env : JsonTaskEnv J) :
    ∀ n calls inner data, calls ≤ (jsonLoop env n calls inner data).1 := by
  intro n
  induction n with
  | zero => intro calls inner data; exact Nat.le_refl _
  | succ n ih =>
    intro calls inner data
    rcases hco : completeOnce env calls inner data with ⟨i', d', r⟩
    cases r with
    | ok u =>
      simp only [jsonLoop, hco]
      exact Nat.le_succ _
    | error m =>
      simp only [jsonLoop, hco]
      exact Nat.le_of_succ_le (ih _ _ _)

theorem jsonLoop_calls_le {J : Type} (env : JsonTaskEnv J) :
    ∀ n calls inner data, (jsonLoop env n calls inner data).1 ≤ calls + n := by
  intro n
  induction n with
  | zero => intro calls inner data; exact Nat.le_refl _
  | succ n ih =>
    intro calls inner data
    rcases hco : completeOnce env calls inner data with ⟨i', d', r⟩
    cases r with
    | ok u =>
      simp only [jsonLoop, hco]
      omega
    | error m =>
      simp only [jsonLoop, hco]
      have := ih (calls + 1)
        (i' ++ [⟨"user", "Unable to parse response. Please fix the error and try again.\n\nError: " ++ m⟩])
        d'
      omega

theorem jsonLoop_calls_pos {J : Type} (env : JsonTaskEnv J) :
    ∀ n calls inner data, 1 ≤ n →
      calls + 1 ≤ (jsonLoop env n calls inner data).1 := by
  intro n
  cases n with
  | zero => intro _ _ _ h; exact absurd h (by omega)
  | succ n =>
    intro calls inner data _
    rcases hco : completeOnce env calls inner data with ⟨i', d', r⟩
    cases r with
    | ok u =>
      simp only [jsonLoop, hco]
      omega
    | error m =>
      simp only [jsonLoop, hco]
      exact jsonLoop_calls_mono env n (calls + 1) _ _

theorem jsonLoop_inner_ext {J : Type} (env : JsonTaskEnv J) :
    ∀ n calls inner data, ∃ ext,
      (jsonLoop env n calls inner data).2.1 = inner ++ ext := by
  intro n
  induction n with
  | zero => intro calls inner data; exact ⟨[], by simp [jsonLoop]⟩
  | succ n ih =>
    intro calls inner data
    cases hout : attemptOutcome env calls with
    | ok p =>
      obtain ⟨j, toks⟩ := p
      obtain ⟨ext, hco⟩ := completeOnce_ok hout inner data
      simp only [jsonLoop, hco]
      exact ⟨ext, rfl⟩
    | error m =>
      obtain ⟨ext, hco⟩ := completeOnce_err hout inner data
      simp only [jsonLoop, hco]
      obtain ⟨ext2, hext2⟩ := ih (calls + 1)
        (inner ++ ext ++ [⟨"user", "Unable to parse response. Please fix the error and try again.\n\nError: " ++ m⟩])
        data
      rw [hext2]
      exact ⟨ext ++ [⟨"user", "Unable to parse response. Please fix the error and try again.\n\nError: " ++ m⟩] ++ ext2, by simp⟩

theorem jsonLoop_data_cases {J : Type} (env : JsonTaskEnv J) :
    ∀ n calls inner data,
      (∃ j toks, (jsonLoop env n calls inner data).2.2 =
        (setData data env.key ⟨j, some toks⟩, .ok ())) ∨
      ∃ m, (jsonLoop env n calls inner data).2.2 = (data, .error m) := by
  intro n
  induction n with
  | zero =>
    intro calls inner data
    exact Or.inr ⟨"Unable to parse response after " ++ toString env.maxTries ++ " tries",
      by simp [jsonLoop]⟩
  | succ n ih =>
    intro calls inner data
    cases hout : attemptOutcome env calls with
    | ok p =>
      obtain ⟨j, toks⟩ := p
      obtain ⟨ext, hco⟩ := completeOnce_ok hout inner data
      simp only [jsonLoop, hco]
      exact Or.inl ⟨j, toks, rfl⟩
    | error m =>
      obtain ⟨ext, hco⟩ := completeOnce_err hout inner data
      simp only [jsonLoop, hco]
      exact ih (calls + 1) _ data

theorem jsonLoop_success {J : Type} {env : JsonTaskEnv J} {j : J} {toks : Nat} :
    ∀ (k n calls : Nat) (inner : List Msg) (data : List (String × DataItem J)),
      k < n →
      (∀ i, calls ≤ i → i < calls + k → ∃ m, attemptOutcome env i = .error m) →
      attemptOutcome env (calls + k) = .ok (j, toks) →
      ∃ inner', jsonLoop env n calls inner data =
        (calls + k + 1, inner', setData data env.key ⟨j, some toks⟩, .ok ()) := by
  intro k
  induction k with
  | zero =>
    intro n calls inner data hkn _ hok
    cases n with
    | zero => exact absurd hkn (by omega)
    | succ n =>
      rw [Nat.add_zero] at hok
      obtain ⟨ext, hco⟩ := completeOnce_ok hok inner data
      refine ⟨inner ++ ext, ?_⟩
      simp only [jsonLoop, hco]
  | succ k ih =>
    intro n calls inner data hkn herr hok
    cases n with
    | zero => exact absurd hkn (by omega)
    | succ n =>
      obtain ⟨m, hm⟩ := herr calls (Nat.le_refl _) (by omega)
      obtain ⟨ext, hco⟩ := completeOnce_err hm inner data
      have herr' : ∀ i, calls + 1 ≤ i → i < calls + 1 + k →
          ∃ m', attemptOutcome env i = .error m' := by
        intro i h1 h2
        exact herr i (by omega) (by omega)
      have hok' : attemptOutcome env (calls + 1 + k) = .ok (j, toks) := by
        have : calls + 1 + k = calls + (k + 1) := by omega
        rw [this]
        exact hok
      obtain ⟨inner', hrec⟩ := ih n (calls + 1)
        (inner ++ ext ++ [⟨"user", "Unable to parse response. Please fix the error and try again.\n\nError: " ++ m⟩])
        data (by omega) herr' hok'
      refine ⟨inner', ?_⟩
      simp only [jsonLoop, hco]
      rw [hrec]
      congr 1
      omega

theorem jsonLoop_exhaust {J : Type} {env : JsonTaskEnv J} :
    ∀ (n calls : Nat) (inner : List Msg) (data : List (String × DataItem J)),
      (∀ i, calls ≤ i → i < calls + n → ∃ m, attemptOutcome env i = .error m) →
      ∃ inner', jsonLoop env n calls inner data =
        (calls + n, inner', data,
          .error ("Unable to parse response after " ++ toString env.maxTries ++ " tries")) := by
  intro n
  induction n with
  | zero =>
    intro calls inner data _
    exact ⟨inner, by simp [jsonLoop]⟩
  | succ n ih =>
    intro calls inner data herr
    obtain ⟨m, hm⟩ := herr calls (Nat.le_refl _) (by omega)
    obtain ⟨ext, hco⟩ := completeOnce_err hm inner data
    have herr' : ∀ i, calls + 1 ≤ i → i < calls + 1 + n →
        ∃ m', attemptOutcome env i = .error m' := by
      intro i h1 h2
      exact herr i (by omega) (by omega)
    obtain ⟨inner', hrec⟩ := ih (calls + 1)
      (inner ++ ext ++ [⟨"user", "Unable to parse response. Please fix the error and try again.\n\nError: " ++ m⟩])
      data herr'
    refine ⟨inner', ?_⟩
    simp only [jsonLoop, hco]
    rw [hrec]
    congr 1
    omega

-- Position helpers for splitting a plan at a task.

theorem idxOf_append_cons_self {l : List String} {n : String} (r : List String)
    (h : n ∉ l) : idxOf (l ++ n :: r) n = l.length := by
  induction l with
  | nil => simp [idxOf]
  | cons x xs ih =>
    have hx : x ≠ n := by rintro rfl; exact h (List.mem_cons_self _ _)
    have hxs : n ∉ xs := fun hm => h (List.mem_cons_of_mem _ hm)
    simp [idxOf, hx, ih hxs]

theorem mem_left_of_idxOf_lt {pre rest : List String} {d : String}
    (hmem : d ∈ pre ++ rest) (hlt : idxOf (pre ++ rest) d < pre.length) :
    d ∈ pre := by
  induction pre with
  | nil => simp [idxOf] at hlt
  | cons x pre ih =>
    by_cases hx : x = d
    · exact hx ▸ List.mem_cons_self _ _
    · have hmem' : d ∈ pre ++ rest := by
        rcases List.mem_cons.mp (show d ∈ x :: (pre ++ rest) from hmem) with h' | h'
        · exact absurd h'.symm hx
        · exact h'
      simp only [List.cons_append, idxOf, if_neg hx, List.length_cons,
        List.append_eq] at hlt
      exact List.mem_cons_of_mem _ (ih hmem' (by omega))

theorem nodup_split_not_mem {pre post : List String} {n : String}
    (h : (pre ++ n :: post).Nodup) : n ∉ pre ∧ n ∉ post := by
  rw [List.nodup_append] at h
  obtain ⟨_, hcons, hdisj⟩ := h
  constructor
  · intro hm
    exact hdisj hm (List.mem_cons_self _ _)
  · exact (List.nodup_cons.mp hcons).1

theorem parSettle_ok_ext {ts : List ETask} {rest : List String}
    {settled sF : List (String × Except String Unit)} {invoked iF : List String}
    (h : parSettle ts rest settled invoked = .ok (sF, iF)) :
    ∃ news, sF = settled ++ news := by
  induction rest generalizing settled invoked with
  | nil =>
    simp only [parSettle, Except.ok.injEq, Prod.mk.injEq] at h
    exact ⟨[], by rw [← h.1]; simp⟩
  | cons n rest ih =>
    cases hft : findTask ts n with
    | none =>
      rw [parSettle_cons_missing rest settled invoked hft] at h
      exact Except.noConfusion h
    | some t =>
      cases hfd : firstDepError settled t.dependencies with
      | some e =>
        rw [parSettle_cons_depErr rest settled invoked hft hfd] at h
        obtain ⟨news, hnews⟩ := ih h
        exact ⟨(n, .error e) :: news, by rw [hnews]; simp⟩
      | none =>
        rw [parSettle_cons_run rest settled invoked hft hfd] at h
        obtain ⟨news, hnews⟩ := ih h
        exact ⟨(n, t.action) :: news, by rw [hnews]; simp⟩

/-- The heart of the parallel failure semantics: when a planned task `n` has
a declared dependency `d` whose unit rejected with `e` (and no other
dependency of `n` rejected), then `n`'s action is never invoked and `n`'s
own unit settles rejected with the same reason `e`, placed after `d`'s
entry in the settlement list. -/
theorem parSettle_depFail {ts : List ETask} {plan : List String}
    {settled : List (String × Except String Unit)} {invoked : List String}
    {n : String} {t : ETask} {d e : String}
    (hnd : (ts.map ETask.name).Nodup)
    (hplan : topologicalSort (graphOf ts) = .ok plan)
    (hsettle : parSettle ts plan [] [] = .ok (settled, invoked))
    (hft : findTask ts n = some t)
    (hd : d ∈ t.dependencies)
    (hde : lookupUnit settled d = some (.error e))
    (hothers : ∀ d' ∈ t.dependencies, d' ≠ d → ∀ e',
      lookupUnit settled d' ≠ some (.error e')) :
    n ∉ invoked ∧ lookupUnit settled n = some (.error e) ∧
    ∃ s1 s2, settled = s1 ++ [(n, .error e)] ++ s2 ∧ (d, .error e) ∈ s1 := by
  have hkeysnd : (keysOf (graphOf ts)).Nodup := by
    rw [keysOf_graphOf]; exact hnd
  have hlookn : lookupDeps (graphOf ts) n = some t.dependencies := by
    rw [lookupDeps_graphOf, hft]; rfl
  have hnkeys : n ∈ keysOf (graphOf ts) := mem_keysOf_of_lookupDeps hlookn
  obtain ⟨hplannd, hsub, hsup, hord⟩ := sort_ok_spec hplan
  have hnp : n ∈ plan := hsup n hnkeys
  obtain ⟨hnp', hdp, hidx⟩ :=
    sort_ok_depOn hplan n d (DepOn.direct hlookn hd)
  obtain ⟨pre, post, hsplit⟩ := List.append_of_mem hnp
  subst hsplit
  obtain ⟨hnpre, hnpost⟩ := nodup_split_not_mem hplannd
  have hidxn : idxOf (pre ++ n :: post) n = pre.length :=
    idxOf_append_cons_self post hnpre
  have hdpre : d ∈ pre := by
    refine mem_left_of_idxOf_lt hdp ?_
    rw [← hidxn]
    exact hidx
  -- split the run at n
  cases hpre : parSettle ts pre [] [] with
  | error x =>
    have hx : parSettle ts (pre ++ n :: post) [] [] = .error x := by
      rw [parSettle_append ts pre (n :: post) [] [], hpre]
    rw [hsettle] at hx
    exact Except.noConfusion hx
  | ok p1 =>
    obtain ⟨s1, i1⟩ := p1
    have happ2 : parSettle ts (n :: post) s1 i1 = .ok (settled, invoked) := by
      have h0 := parSettle_append ts pre (n :: post) [] []
      rw [hpre, hsettle] at h0
      exact h0.symm
    obtain ⟨hnames1, inew1, hi1, hsub1⟩ := parSettle_ok_names hpre
    simp only [List.map_nil, List.nil_append] at hnames1
    simp only [List.nil_append] at hi1
    -- the whole settled list extends s1
    obtain ⟨news, hnews⟩ := parSettle_ok_ext happ2
    -- d's unit is already in s1, with reason e
    have hdnames : d ∈ s1.map Prod.fst := by rw [hnames1]; exact hdpre
    have hdu : ∃ u, lookupUnit s1 d = some u := by
      cases hl : lookupUnit s1 d with
      | none => exact absurd (lookupUnit_eq_none_iff.mp hl) (by simp [hdnames])
      | some u => exact ⟨u, rfl⟩
    obtain ⟨u, hu⟩ := hdu
    have hue : u = .error e := by
      have := lookupUnit_append_some (r := news) hu
      rw [← hnews] at this
      rw [this] at hde
      injection hde with hde
    subst hue
    -- n's wait rejects with e
    have hfde : firstDepError s1 t.dependencies = some e := by
      refine firstDepError_spec ?_ hd hu hothers
      intro x u' hx
      have := lookupUnit_append_some (r := news) hx
      rw [← hnews] at this
      exact this
    rw [parSettle_cons_depErr post s1 i1 hft hfde] at happ2
    -- facts about the tail run
    obtain ⟨hnames2, inew2, hi2, hsub2⟩ := parSettle_ok_names happ2
    obtain ⟨news2, hnews2⟩ := parSettle_ok_ext happ2
    constructor
    · -- n is never invoked
      rw [hi2]
      intro hmem
      rcases List.mem_append.mp hmem with hm | hm
      · rw [hi1] at hm
        exact hnpre (hsub1 n hm)
      · exact hnpost (hsub2 n hm)
    constructor
    · -- n's unit settles rejected with e
      rw [hnews2]
      have hn1 : n ∉ s1.map Prod.fst := by rw [hnames1]; exact hnpre
      rw [List.append_assoc, lookupUnit_append_right hn1]
      simp [lookupUnit]
    · -- settlement decomposition
      refine ⟨s1, news2, by rw [hnews2, List.append_assoc], ?_⟩
      exact lookupUnit_mem hu

-- Claim theorems.

/-- C1 (amended): for every graph with distinct registered names whose
topological sort succeeds, the plan is a permutation of the registered
names (every task exactly once) and every transitive dependency of a task
appears strictly before it in the plan.  (The original claim's further
assertion — that tasks unrelated by the dependency relation keep their
insertion order — is false on the code; see the counterexample.) -/
theorem C1_plan_correct {g : Graph} {plan : List String}
    (hnd : (keysOf g).Nodup) (h : topologicalSort g = .ok plan) :
    plan.Perm (keysOf g) ∧ plan.Nodup ∧
    ∀ t d, DepOn g t d → t ∈ plan ∧ d ∈ plan ∧ idxOf plan d < idxOf plan t :=
  ⟨sort_ok_perm hnd h, (sort_ok_spec h).1, sort_ok_depOn h⟩

/-- C1 witness: the amended claim applied to the two-task graph
`A` depends on `B`, whose plan is `[B, A]`. -/
theorem C1_plan_correct_witness :
    (["B", "A"] : List String).Perm (keysOf [("A", ["B"]), ("B", [])]) ∧
    (["B", "A"] : List String).Nodup ∧
    ∀ t d, DepOn [("A", ["B"]), ("B", [])] t d →
      t ∈ ["B", "A"] ∧ d ∈ ["B", "A"] ∧
        idxOf ["B", "A"] d < idxOf ["B", "A"] t :=
  C1_plan_correct (by decide)
    (by simp [topologicalSort, visitList, visit, keysOf, lookupDeps, eraseFirst])

/-- C1 counterexample: in the graph `X` depends on `Z`, `Y` (inserted
second) and `Z` (inserted third) are unrelated by the dependency relation,
yet the plan `[Z, X, Y]` places `Z` before `Y`, against insertion order —
the claim's tie-breaking assertion fails. -/
theorem C1_counterexample :
    topologicalSort [("X", ["Z"]), ("Y", []), ("Z", [])] = .ok ["Z", "X", "Y"] ∧
    ¬ DepOn [("X", ["Z"]), ("Y", []), ("Z", [])] "Y" "Z" ∧
    ¬ DepOn [("X", ["Z"]), ("Y", []), ("Z", [])] "Z" "Y" ∧
    idxOf (keysOf [("X", ["Z"]), ("Y", []), ("Z", [])]) "Y" <
      idxOf (keysOf [("X", ["Z"]), ("Y", []), ("Z", [])]) "Z" ∧
    idxOf ["Z", "X", "Y"] "Z" < idxOf ["Z", "X", "Y"] "Y" := by
  refine ⟨by simp [topologicalSort, visitList, visit, keysOf, lookupDeps, eraseFirst],
    ?_, ?_, by decide, by decide⟩
  · intro h
    cases h with
    | direct hl hm =>
      rw [show lookupDeps [("X", ["Z"]), ("Y", []), ("Z", [])] "Y" =
        some [] from rfl] at hl
      injection hl with hl
      subst hl
      exact absurd hm (List.not_mem_nil _)
    | step hl hm _ =>
      rw [show lookupDeps [("X", ["Z"]), ("Y", []), ("Z", [])] "Y" =
        some [] from rfl] at hl
      injection hl with hl
      subst hl
      exact absurd hm (List.not_mem_nil _)
  · intro h
    cases h with
    | direct hl hm =>
      rw [show lookupDeps [("X", ["Z"]), ("Y", []), ("Z", [])] "Z" =
        some [] from rfl] at hl
      injection hl with hl
      subst hl
      exact absurd hm (List.not_mem_nil _)
    | step hl hm _ =>
      rw [show lookupDeps [("X", ["Z"]), ("Y", []), ("Z", [])] "Z" =
        some [] from rfl] at hl
      injection hl with hl
      subst hl
      exact absurd hm (List.not_mem_nil _)

/-- C2 (amended): a graph with a dependency cycle and no missing
dependency references fails plan computation — and hence `execute` and
`executeParallel`, before any task action runs — with a cycle error; the
error's path is the in-progress chain of the traversal that discovered the
cycle (which may start before the cycle) followed by the revisited node,
so its last element occurs earlier in the path. -/
theorem C2_cycle_error {ts : List ETask} {t : String}
    (hc : DepOn (graphOf ts) t t)
    (hclean : ∀ p ∈ graphOf ts, ∀ d ∈ p.2, d ∈ keysOf (graphOf ts)) :
    ∃ p, topologicalSort (graphOf ts) = .error (.cyclic p) ∧
      execute ts = ([], .error (.structural (.cyclic p))) ∧
      executeParallel ts = ([], .error (.structural (.cyclic p))) ∧
      ∃ l m, p = l ++ [m] ∧ m ∈ l := by
  cases hs : topologicalSort (graphOf ts) with
  | ok plan => exact absurd hs (sort_cyclic_fails hc plan)
  | error e =>
    rcases sort_error_cases hs with ⟨p, rfl⟩ | ⟨m, rfl⟩
    · exact ⟨p, rfl, by simp [execute, hs], by simp [executeParallel, hs],
        sort_cyclic_path_shape hs⟩
    · obtain ⟨hnone, t', ds', ht', hm⟩ := sort_notFound_shape hs
      have hmk : m ∈ keysOf (graphOf ts) :=
        hclean (t', ds') (lookupDeps_entry_mem ht') m hm
      exact absurd hmk (lookupDeps_eq_none_iff.mp hnone)

/-- C2 witness: the amended claim applied to the two-task cycle
`A` depends on `B`, `B` depends on `A`. -/
theorem C2_cycle_error_witness :
    ∃ p, topologicalSort (graphOf [⟨"A", ["B"], .ok ()⟩, ⟨"B", ["A"], .ok ()⟩]) =
        .error (.cyclic p) ∧
      execute [⟨"A", ["B"], .ok ()⟩, ⟨"B", ["A"], .ok ()⟩] =
        ([], .error (.structural (.cyclic p))) ∧
      executeParallel [⟨"A", ["B"], .ok ()⟩, ⟨"B", ["A"], .ok ()⟩] =
        ([], .error (.structural (.cyclic p))) ∧
      ∃ l m, p = l ++ [m] ∧ m ∈ l :=
  C2_cycle_error
    (DepOn.step (t := "A") (m := "B")
      (show lookupDeps (graphOf [⟨"A", ["B"], .ok ()⟩, ⟨"B", ["A"], .ok ()⟩]) "A" =
        some ["B"] from rfl)
      (List.mem_cons_self _ _)
      (DepOn.direct (t := "B") (d := "A")
        (show lookupDeps (graphOf [⟨"A", ["B"], .ok ()⟩, ⟨"B", ["A"], .ok ()⟩]) "B" =
          some ["A"] from rfl)
        (List.mem_cons_self _ _)))
    (by decide)

/-- C2 counterexample: (i) with `X` depending on `A` and the cycle
`A -> B -> A`, the thrown path is `[X, A, B, A]`: it ends at the repeated
node `A` but starts at `X`, a node outside the cycle, so the path is not
"exactly the repeated node and the nodes traversed to reach it again";
(ii) the graph `A -> M` (missing), `B <-> C` contains a cycle yet fails
with a task-not-found error, not a cycle error. -/
theorem C2_counterexample :
    topologicalSort [("X", ["A"]), ("A", ["B"]), ("B", ["A"])] =
      .error (.cyclic ["X", "A", "B", "A"]) ∧
    (["X", "A", "B", "A"] : List String).getLast? = some "A" ∧
    (["X", "A", "B", "A"] : List String).head? = some "X" ∧
    ("X" : String) ≠ "A" ∧
    topologicalSort [("A", ["M"]), ("B", ["C"]), ("C", ["B"])] =
      .error (.notFound "M") ∧
    DepOn [("A", ["M"]), ("B", ["C"]), ("C", ["B"])] "B" "B" := by
  refine ⟨by simp [topologicalSort, visitList, visit, keysOf, lookupDeps, eraseFirst],
    by decide, by decide, by decide,
    by simp [topologicalSort, visitList, visit, keysOf, lookupDeps, eraseFirst], ?_⟩
  exact DepOn.step (t := "B") (m := "C")
    (show lookupDeps [("A", ["M"]), ("B", ["C"]), ("C", ["B"])] "B" =
      some ["C"] from rfl)
    (List.mem_cons_self _ _)
    (DepOn.direct (t := "C") (d := "B")
      (show lookupDeps [("A", ["M"]), ("B", ["C"]), ("C", ["B"])] "C" =
        some ["B"] from rfl)
      (List.mem_cons_self _ _))

/-- C8 (amended): if a registered task references a dependency name that
was never added to the graph, `execute` and `executeParallel` fail during
plan computation — before any task action runs — with a structural error:
either a task-not-found error (which always names an unregistered name
referenced as a dependency of a registered task) or, when the traversal
discovers a cycle first, the cycle error.  Missing dependencies are never
treated as satisfied. -/
theorem C8_missing_dependency {ts : List ETask} (tn d : String) (ds : List String)
    (ht : lookupDeps (graphOf ts) tn = some ds) (hd : d ∈ ds)
    (hmiss : lookupDeps (graphOf ts) d = none) :
    ∃ e, topologicalSort (graphOf ts) = .error e ∧
      execute ts = ([], .error (.structural e)) ∧
      executeParallel ts = ([], .error (.structural e)) ∧
      ((∃ p, e = .cyclic p) ∨ ∃ m, e = .notFound m) ∧
      ∀ m, e = .notFound m → lookupDeps (graphOf ts) m = none ∧
        ∃ t' ds', lookupDeps (graphOf ts) t' = some ds' ∧ m ∈ ds' := by
  cases hs : topologicalSort (graphOf ts) with
  | ok plan => exact absurd hs (sort_missing_fails ht hd hmiss plan)
  | error e =>
    refine ⟨e, rfl, by simp [execute, hs], by simp [executeParallel, hs],
      sort_error_cases hs, ?_⟩
    rintro m rfl
    exact sort_notFound_shape hs

/-- C8 witness: the amended claim applied to a single task `A` whose
dependency `M` was never registered. -/
theorem C8_missing_dependency_witness :
    ∃ e, topologicalSort (graphOf [⟨"A", ["M"], .ok ()⟩]) = .error e ∧
      execute [⟨"A", ["M"], .ok ()⟩] = ([], .error (.structural e)) ∧
      executeParallel [⟨"A", ["M"], .ok ()⟩] = ([], .error (.structural e)) ∧
      ((∃ p, e = .cyclic p) ∨ ∃ m, e = .notFound m) ∧
      ∀ m, e = .notFound m → lookupDeps (graphOf [⟨"A", ["M"], .ok ()⟩]) m = none ∧
        ∃ t' ds', lookupDeps (graphOf [⟨"A", ["M"], .ok ()⟩]) t' = some ds' ∧ m ∈ ds' :=
  C8_missing_dependency "A" "M" ["M"] rfl (List.mem_cons_self _ _) rfl

/-- C8 counterexample: (i) with tasks `A` (self-cycle) and `B` referencing
the unregistered `M`, the surfaced error is the cycle error, not a
task-not-found error naming `M`; (ii) with one task referencing the two
unregistered names `M1` and `M2`, the error names `M1` only, so the claim
instance for `M2` ("an error naming exactly that missing dependency") fails. -/
theorem C8_counterexample :
    execute [⟨"A", ["A"], .ok ()⟩, ⟨"B", ["M"], .ok ()⟩] =
      ([], .error (.structural (.cyclic ["A", "A"]))) ∧
    lookupDeps (graphOf [⟨"A", ["A"], .ok ()⟩, ⟨"B", ["M"], .ok ()⟩]) "M" = none ∧
    lookupDeps (graphOf [⟨"A", ["A"], .ok ()⟩, ⟨"B", ["M"], .ok ()⟩]) "B" = some ["M"] ∧
    (∀ m : String, SortError.cyclic ["A", "A"] ≠ SortError.notFound m) ∧
    execute [⟨"A", ["M1", "M2"], .ok ()⟩] =
      ([], .error (.structural (.notFound "M1"))) ∧
    lookupDeps (graphOf [⟨"A", ["M1", "M2"], .ok ()⟩]) "M2" = none ∧
    ("M1" : String) ≠ "M2" := by
  refine ⟨by simp [execute, topologicalSort, visitList, visit, keysOf, graphOf,
      lookupDeps, eraseFirst],
    by simp [graphOf, lookupDeps], by simp [graphOf, lookupDeps],
    fun m h => SortError.noConfusion h,
    by simp [execute, topologicalSort, visitList, visit, keysOf, graphOf,
      lookupDeps, eraseFirst],
    by simp [graphOf, lookupDeps], by decide⟩

/-- C4: sequential `execute` runs planned tasks one at a time in plan
order and fails fast: with every task before `B` in the plan succeeding and
`B`'s action throwing `e`, exactly the tasks up to and including `B` are
invoked, nothing after `B` runs, and the call rejects with
`AggregateError([e], 'Task "B" failed')` — naming `B` and wrapping `e` as
the single cause. -/
theorem C4_sequential_failFast {ts : List ETask} {plan pre post : List String}
    {B : String} {tB : ETask} {e : String}
    (hplan : topologicalSort (graphOf ts) = .ok plan)
    (hsplit : plan = pre ++ B :: post)
    (hpre : ∀ n ∈ pre, ∃ t, findTask ts n = some t ∧ t.action = .ok ())
    (hB : findTask ts B = some tB) (hact : tB.action = .error e) :
    execute ts =
      (pre ++ [B], .error (.aggregate ("Task \"" ++ B ++ "\" failed") [e])) := by
  subst hsplit
  simp only [execute, hplan]
  rw [runSeq_ok_append hpre (B :: post), runSeq_fail hB hact]

/-- C4 witness: tasks `[A ok, B fails, C ok]` — `A` and `B` run, `C` never
does, and the error wraps `B`'s cause. -/
theorem C4_sequential_failFast_witness :
    execute [⟨"A", [], .ok ()⟩, ⟨"B", [], .error "bfail"⟩, ⟨"C", [], .ok ()⟩] =
      (["A"] ++ ["B"],
        .error (.aggregate ("Task \"" ++ "B" ++ "\" failed") ["bfail"])) := by
  refine C4_sequential_failFast
    (show topologicalSort (graphOf
        [⟨"A", [], .ok ()⟩, ⟨"B", [], .error "bfail"⟩, ⟨"C", [], .ok ()⟩]) =
        .ok ["A", "B", "C"] by
      simp [topologicalSort, visitList, visit, keysOf, graphOf, lookupDeps, eraseFirst])
    (show ["A", "B", "C"] = ["A"] ++ "B" :: ["C"] from rfl) ?_ rfl rfl
  intro n hn
  rw [List.mem_singleton] at hn
  subst hn
  exact ⟨⟨"A", [], .ok ()⟩, rfl, rfl⟩

/-- C5: `executeParallel` does not fail fast: on a task list with no
dependencies and distinct names, every task's action is invoked; the call
succeeds when no action throws, and otherwise rejects — only after every
unit has settled, which the model's aggregation-over-all-settled-units
expresses — with an `AggregateError` whose causes are exactly the errors
of the failing tasks, in order. -/
theorem C5_parallel_collects_all {ts : List ETask}
    (hnd : (ts.map ETask.name).Nodup)
    (hdeps : ∀ t ∈ ts, t.dependencies = []) :
    (∀ t ∈ ts, t.name ∈ (executeParallel ts).1) ∧
    (actionErrors ts = [] → (executeParallel ts).2 = .ok ()) ∧
    (actionErrors ts ≠ [] → (executeParallel ts).2 =
      .error (.aggregate (toString (actionErrors ts).length ++ " tasks failed")
        (actionErrors ts))) := by
  have hg : ∀ p ∈ graphOf ts, p.2 = ([] : List String) := by
    intro p hp
    obtain ⟨t, ht, rfl⟩ := List.mem_map.mp hp
    exact hdeps t ht
  have hknd : (keysOf (graphOf ts)).Nodup := by
    rw [keysOf_graphOf]; exact hnd
  have hsort := sort_noDeps hg hknd
  rw [keysOf_graphOf] at hsort
  have hsettle := parSettle_noDeps ts (fun t ht => findTask_of_mem_nodup hnd ht)
    hdeps [] []
  have hexec : executeParallel ts =
      (ts.map ETask.name,
        if (actionErrors ts).isEmpty then .ok ()
        else .error (.aggregate (toString (actionErrors ts).length ++ " tasks failed")
          (actionErrors ts))) := by
    simp only [executeParallel, hsort, hsettle, List.nil_append, causesOf_actions]
  rw [hexec]
  refine ⟨fun t ht => List.mem_map_of_mem ETask.name ht, ?_, ?_⟩
  · intro h
    simp [h]
  · intro h
    rw [if_neg (by simpa [List.isEmpty_iff] using h)]

/-- C5 witness: independent tasks `[A fails, B ok, C ok]` — all three are
invoked and the aggregate contains exactly `A`'s cause. -/
theorem C5_parallel_collects_all_witness :
    (∀ t ∈ ([⟨"A", [], .error "afail"⟩, ⟨"B", [], .ok ()⟩, ⟨"C", [], .ok ()⟩] : List ETask),
      t.name ∈ (executeParallel [⟨"A", [], .error "afail"⟩, ⟨"B", [], .ok ()⟩, ⟨"C", [], .ok ()⟩]).1) ∧
    (actionErrors [⟨"A", [], .error "afail"⟩, ⟨"B", [], .ok ()⟩, ⟨"C", [], .ok ()⟩] = [] →
      (executeParallel [⟨"A", [], .error "afail"⟩, ⟨"B", [], .ok ()⟩, ⟨"C", [], .ok ()⟩]).2 = .ok ()) ∧
    (actionErrors [⟨"A", [], .error "afail"⟩, ⟨"B", [], .ok ()⟩, ⟨"C", [], .ok ()⟩] ≠ [] →
      (executeParallel [⟨"A", [], .error "afail"⟩, ⟨"B", [], .ok ()⟩, ⟨"C", [], .ok ()⟩]).2 =
        .error (.aggregate
          (toString (actionErrors [⟨"A", [], .error "afail"⟩, ⟨"B", [], .ok ()⟩, ⟨"C", [], .ok ()⟩]).length ++ " tasks failed")
          (actionErrors [⟨"A", [], .error "afail"⟩, ⟨"B", [], .ok ()⟩, ⟨"C", [], .ok ()⟩]))) :=
  C5_parallel_collects_all (by decide) (by decide)

/-- C3 (amended/corrected): in `executeParallel`, when a declared
dependency `d` of task `n` settles rejected (and no other dependency of
`n` rejects), `n`'s action is NOT invoked: the dependent's wait
(`Promise.all`) rejects with the dependency's error, so dependents ARE
short-circuited by a failed dependency, contrary to the original claim. -/
theorem C3_dependent_not_invoked {ts : List ETask} {plan : List String}
    {settled : List (String × Except String Unit)} {invoked : List String}
    {n : String} {t : ETask} {d e : String}
    (hnd : (ts.map ETask.name).Nodup)
    (hplan : topologicalSort (graphOf ts) = .ok plan)
    (hsettle : parSettle ts plan [] [] = .ok (settled, invoked))
    (hft : findTask ts n = some t)
    (hd : d ∈ t.dependencies)
    (hde : lookupUnit settled d = some (.error e))
    (hothers : ∀ d' ∈ t.dependencies, d' ≠ d → ∀ e',
      lookupUnit settled d' ≠ some (.error e')) :
    n ∉ invoked ∧ lookupUnit settled n = some (.error e) := by
  have h := parSettle_depFail hnd hplan hsettle hft hd hde hothers
  exact ⟨h.1, h.2.1⟩

/-- C3 witness: tasks `A` (fails with "boom") and `B` depending on `A` —
`B` is not invoked and `B`'s unit rejects with `A`'s error. -/
theorem C3_dependent_not_invoked_witness :
    "B" ∉ (["A"] : List String) ∧
    lookupUnit [("A", .error "boom"), ("B", .error "boom")] "B" =
      some (.error "boom") := by
  refine C3_dependent_not_invoked (d := "A") (e := "boom")
    (by decide :
      (([⟨"A", [], .error "boom"⟩, ⟨"B", ["A"], .ok ()⟩] : List ETask).map ETask.name).Nodup)
    (show topologicalSort (graphOf [⟨"A", [], .error "boom"⟩, ⟨"B", ["A"], .ok ()⟩]) =
        .ok ["A", "B"] by
      simp [topologicalSort, visitList, visit, keysOf, graphOf, lookupDeps, eraseFirst])
    (show parSettle [⟨"A", [], .error "boom"⟩, ⟨"B", ["A"], .ok ()⟩] ["A", "B"] [] [] =
        .ok ([("A", .error "boom"), ("B", .error "boom")], ["A"]) from rfl)
    rfl (List.mem_cons_self _ _) rfl ?_
  intro d' hd' hne e'
  rw [List.mem_singleton] at hd'
  exact absurd hd' hne

/-- C3 counterexample: with task `A` failing and task `B` depending on
`A`, `executeParallel` invokes only `A` — `B`'s action is never invoked,
refuting the claim that a dependent's action still runs after its
dependency fails. -/
theorem C3_counterexample :
    (executeParallel [⟨"A", [], .error "boom"⟩, ⟨"B", ["A"], .ok ()⟩]).1 = ["A"] ∧
    "B" ∉ (executeParallel [⟨"A", [], .error "boom"⟩, ⟨"B", ["A"], .ok ()⟩]).1 := by
  have h : (executeParallel [⟨"A", [], .error "boom"⟩, ⟨"B", ["A"], .ok ()⟩]).1 = ["A"] := by
    simp [executeParallel, topologicalSort, visitList, visit, keysOf, graphOf,
      lookupDeps, eraseFirst, parSettle, findTask, firstDepError, lookupUnit]
  refine ⟨h, ?_⟩
  rw [h]
  decide

/-- C10: in `executeParallel`, when a task's single rejected dependency
`d` settled with error `e`, the dependent's combined wait rejects with
that same `e`: its action is never invoked and its unit settles rejected
with `e`, so the surfaced aggregate error contains the underlying cause
`e` at least twice — once for `d`'s unit and once for the dependent's. -/
theorem C10_dependent_error_propagation {ts : List ETask} {plan : List String}
    {settled : List (String × Except String Unit)} {invoked : List String}
    {n : String} {t : ETask} {d e : String}
    (hnd : (ts.map ETask.name).Nodup)
    (hplan : topologicalSort (graphOf ts) = .ok plan)
    (hsettle : parSettle ts plan [] [] = .ok (settled, invoked))
    (hft : findTask ts n = some t)
    (hd : d ∈ t.dependencies)
    (hde : lookupUnit settled d = some (.error e))
    (hothers : ∀ d' ∈ t.dependencies, d' ≠ d → ∀ e',
      lookupUnit settled d' ≠ some (.error e')) :
    lookupUnit settled n = some (.error e) ∧ n ∉ invoked ∧
    ∃ causes, executeParallel ts =
      (invoked, .error (.aggregate (toString causes.length ++ " tasks failed") causes)) ∧
      2 ≤ causes.count e := by
  obtain ⟨hninv, hlook, s1, s2, hdecomp, hdmem⟩ :=
    parSettle_depFail hnd hplan hsettle hft hd hde hothers
  have hmid : causesOf [(n, (.error e : Except String Unit))] = [e] := rfl
  have hcount : 2 ≤ (causesOf settled).count e := by
    rw [hdecomp, causesOf_append, causesOf_append, hmid]
    have h1 : 0 < (causesOf s1).count e :=
      List.count_pos_iff.mpr (mem_causesOf hdmem)
    have h2 : ([e] : List String).count e = 1 := by simp
    simp only [List.count_append]
    omega
  have hne : causesOf settled ≠ [] := by
    intro h0
    rw [h0] at hcount
    simp at hcount
  refine ⟨hlook, hninv, causesOf settled, ?_, hcount⟩
  simp only [executeParallel, hplan, hsettle]
  rw [if_neg (by simpa [List.isEmpty_iff] using hne)]

/-- C10 witness: tasks `D` (fails with "crash") and `E` depending on `D` —
`E`'s unit settles with "crash" and the aggregate lists "crash" twice. -/
theorem C10_dependent_error_propagation_witness :
    lookupUnit [("D", .error "crash"), ("E", .error "crash")] "E" =
      some (.error "crash") ∧
    "E" ∉ (["D"] : List String) ∧
    ∃ causes, executeParallel [⟨"D", [], .error "crash"⟩, ⟨"E", ["D"], .ok ()⟩] =
      (["D"], .error (.aggregate (toString causes.length ++ " tasks failed") causes)) ∧
      2 ≤ causes.count "crash" := by
  refine C10_dependent_error_propagation (d := "D") (e := "crash")
    (by decide :
      (([⟨"D", [], .error "crash"⟩, ⟨"E", ["D"], .ok ()⟩] : List ETask).map ETask.name).Nodup)
    (show topologicalSort (graphOf [⟨"D", [], .error "crash"⟩, ⟨"E", ["D"], .ok ()⟩]) =
        .ok ["D", "E"] by
      simp [topologicalSort, visitList, visit, keysOf, graphOf, lookupDeps, eraseFirst])
    (show parSettle [⟨"D", [], .error "crash"⟩, ⟨"E", ["D"], .ok ()⟩] ["D", "E"] [] [] =
        .ok ([("D", .error "crash"), ("E", .error "crash")], ["D"]) from rfl)
    rfl (List.mem_cons_self _ _) rfl ?_
  intro d' hd' hne e'
  rw [List.mem_singleton] at hd'
  exact absurd hd' hne

/-- C6 (amended/corrected): in `createJsonTask`, a completion-port
(transport) failure does NOT propagate immediately: the retry loop's
`catch` is indiscriminate, so a transport failure consumes a retry exactly
like a content-shape failure — its message is fed back into the private
conversation as a user turn and, with at least one try left, a further
completion call is made. -/
theorem C6_transport_retried {J : Type} (env : JsonTaskEnv J) (content : String)
    (data : List (String × DataItem J)) (shared : List Msg) (m : String)
    (hp : env.port 0 = .fail m) (hmax : 2 ≤ env.maxTries) :
    2 ≤ ((runJsonTask env content data shared).1).calls ∧
    (⟨"user", "Unable to parse response. Please fix the error and try again.\n\nError: " ++ m⟩ : Msg) ∈
      ((runJsonTask env content data shared).1).inner := by
  obtain ⟨n, hn, hn1⟩ : ∃ n, env.maxTries = n + 1 ∧ 1 ≤ n :=
    ⟨env.maxTries - 1, by omega, by omega⟩
  have hatt : attemptOutcome env 0 = .error m := attemptOutcome_fail hp
  obtain ⟨ext, hco⟩ :=
    completeOnce_err hatt [⟨"system", env.system⟩, ⟨"user", content⟩] data
  simp only [runJsonTask]
  rw [hn]
  simp only [jsonLoop, hco, Nat.zero_add]
  constructor
  · have h1 := jsonLoop_calls_pos env n 1
      (([⟨"system", env.system⟩, ⟨"user", content⟩] ++ ext) ++
        [⟨"user", "Unable to parse response. Please fix the error and try again.\n\nError: " ++ m⟩])
      data hn1
    omega
  · obtain ⟨ext2, hext2⟩ := jsonLoop_inner_ext env n 1
      (([⟨"system", env.system⟩, ⟨"user", content⟩] ++ ext) ++
        [⟨"user", "Unable to parse response. Please fix the error and try again.\n\nError: " ++ m⟩])
      data
    rw [hext2]
    simp

/-- C6 witness: a port that always fails with a transport error, with two
tries configured — a second completion call is still made and the
transport error's message is fed back into the private conversation. -/
theorem C6_transport_retried_witness :
    2 ≤ ((runJsonTask (⟨"keywords", fun _ => .fail "ECONNREFUSED", fun _ => none,
        fun _ => false, fun _ => none, "sys", 2⟩ : JsonTaskEnv Nat)
        "text" [] []).1).calls ∧
    (⟨"user", "Unable to parse response. Please fix the error and try again.\n\nError: " ++ "ECONNREFUSED"⟩ : Msg) ∈
      ((runJsonTask (⟨"keywords", fun _ => .fail "ECONNREFUSED", fun _ => none,
        fun _ => false, fun _ => none, "sys", 2⟩ : JsonTaskEnv Nat)
        "text" [] []).1).inner :=
  C6_transport_retried _ "text" [] [] "ECONNREFUSED" rfl (by decide)

/-- C6 counterexample: with a port that always fails with `ECONNREFUSED`
and `maxTries = 2`, the task makes 2 completion calls (the transport
failure consumed a retry) and surfaces the retries-exhausted error, not
the transport error — the claimed immediate fatal propagation does not
happen. -/
theorem C6_counterexample :
    ((runJsonTask (⟨"keywords", fun _ => .fail "ECONNREFUSED", fun _ => none,
        fun _ => false, fun _ => none, "sys", 2⟩ : JsonTaskEnv Nat)
      "text" [] []).1).calls = 2 ∧
    ((runJsonTask (⟨"keywords", fun _ => .fail "ECONNREFUSED", fun _ => none,
        fun _ => false, fun _ => none, "sys", 2⟩ : JsonTaskEnv Nat)
      "text" [] []).1).result = .error "Unable to parse response after 2 tries" ∧
    ((runJsonTask (⟨"keywords", fun _ => .fail "ECONNREFUSED", fun _ => none,
        fun _ => false, fun _ => none, "sys", 2⟩ : JsonTaskEnv Nat)
      "text" [] []).1).result ≠ .error "ECONNREFUSED" :=
  ⟨rfl, rfl, by decide⟩

/-- C7 (amended): the retry-validating task makes at most `maxTries`
completion calls; if the first `k` attempts fail and attempt `k`
(zero-based, `k < maxTries`) parses and validates, the task succeeds after
exactly `k + 1` calls and writes the decoded value (tagged with the
completion-token count) under the task key; if all `maxTries` attempts
fail, it makes exactly `maxTries` calls — never one more — leaves the
store untouched, and throws the retries-exhausted error, which names the
attempt count but (contrary to the original claim) not the task key. -/
theorem C7_retry_budget {J : Type} (env : JsonTaskEnv J) (content : String)
    (data : List (String × DataItem J)) (shared : List Msg) :
    (((runJsonTask env content data shared).1).calls ≤ env.maxTries) ∧
    (∀ (k : Nat) (j : J) (toks : Nat), k < env.maxTries →
      (∀ i, i < k → ∃ m, attemptOutcome env i = .error m) →
      attemptOutcome env k = .ok (j, toks) →
      ((runJsonTask env content data shared).1).result = .ok () ∧
      ((runJsonTask env content data shared).1).calls = k + 1 ∧
      ((runJsonTask env content data shared).1).data =
        setData data env.key ⟨j, some toks⟩) ∧
    ((∀ i, i < env.maxTries → ∃ m, attemptOutcome env i = .error m) →
      ((runJsonTask env content data shared).1).result =
        .error ("Unable to parse response after " ++ toString env.maxTries ++ " tries") ∧
      ((runJsonTask env content data shared).1).calls = env.maxTries ∧
      ((runJsonTask env content data shared).1).data = data) := by
  refine ⟨?_, ?_, ?_⟩
  · have h := jsonLoop_calls_le env env.maxTries 0
      [⟨"system", env.system⟩, ⟨"user", content⟩] data
    simpa [runJsonTask] using h
  · intro k j toks hk herr hok
    obtain ⟨inner', hrun⟩ := jsonLoop_success k env.maxTries 0
      [⟨"system", env.system⟩, ⟨"user", content⟩] data hk
      (fun i h0 hik => herr i (by omega)) (by simpa using hok)
    refine ⟨?_, ?_, ?_⟩ <;> simp [runJsonTask, hrun]
  · intro herr
    obtain ⟨inner', hrun⟩ := jsonLoop_exhaust env.maxTries 0
      [⟨"system", env.system⟩, ⟨"user", content⟩] data
      (fun i h0 hik => herr i (by omega))
    refine ⟨?_, ?_, ?_⟩ <;> simp [runJsonTask, hrun]

/-- C7 witness: a port that returns malformed content twice and then, on
the third call, content that parses and validates (maxTries = 3): the task
succeeds after exactly 3 calls and the store holds the decoded value. -/
theorem C7_retry_budget_witness :
    ((runJsonTask (⟨"keywords", fun i => if i < 2 then .reply "bad" 0 else .reply "good" 7,
        fun c => if c = "good" then some 42 else none, fun _ => true, fun _ => none,
        "sys", 3⟩ : JsonTaskEnv Nat) "text" [] []).1).result = .ok () ∧
    ((runJsonTask (⟨"keywords", fun i => if i < 2 then .reply "bad" 0 else .reply "good" 7,
        fun c => if c = "good" then some 42 else none, fun _ => true, fun _ => none,
        "sys", 3⟩ : JsonTaskEnv Nat) "text" [] []).1).calls = 2 + 1 ∧
    ((runJsonTask (⟨"keywords", fun i => if i < 2 then .reply "bad" 0 else .reply "good" 7,
        fun c => if c = "good" then some 42 else none, fun _ => true, fun _ => none,
        "sys", 3⟩ : JsonTaskEnv Nat) "text" [] []).1).data =
      setData [] "keywords" ⟨42, some 7⟩ := by
  refine (C7_retry_budget (⟨"keywords",
      fun i => if i < 2 then .reply "bad" 0 else .reply "good" 7,
      fun c => if c = "good" then some 42 else none, fun _ => true, fun _ => none,
      "sys", 3⟩ : JsonTaskEnv Nat) "text" [] []).2.1 2 42 7 (by decide) ?_ rfl
  intro i hi
  refine ⟨"Message is not valid JSON", ?_⟩
  have hcase : i = 0 ∨ i = 1 := by omega
  rcases hcase with rfl | rfl
  · rfl
  · rfl

/-- C7 counterexample: two configurations identical but for the task key
(`k1` vs `k2`), under a port that never produces valid content with
maxTries = 2, surface the very same retries-exhausted error — so the error
does not name the task key, only the attempt count. -/
theorem C7_counterexample :
    ((runJsonTask (⟨"k1", fun _ => .reply "x" 0, fun _ => none, fun _ => false,
        fun _ => none, "sys", 2⟩ : JsonTaskEnv Nat) "text" [] []).1).result =
      ((runJsonTask (⟨"k2", fun _ => .reply "x" 0, fun _ => none, fun _ => false,
        fun _ => none, "sys", 2⟩ : JsonTaskEnv Nat) "text" [] []).1).result ∧
    ("k1" : String) ≠ "k2" ∧
    ((runJsonTask (⟨"k1", fun _ => .reply "x" 0, fun _ => none, fun _ => false,
        fun _ => none, "sys", 2⟩ : JsonTaskEnv Nat) "text" [] []).1).result =
      .error "Unable to parse response after 2 tries" :=
  ⟨rfl, by decide, rfl⟩

/-- C9: one invocation of the retry-validating task never mutates the
caller-visible shared context; all dialogue happens on a fresh private
conversation built from the system instruction and the message content;
and the only caller-visible effect is the single annotation written under
the task key on success — on failure the store is returned unchanged. -/
theorem C9_shared_context_untouched {J : Type} (env : JsonTaskEnv J)
    (content : String) (data : List (String × DataItem J)) (shared : List Msg) :
    (runJsonTask env content data shared).2 = shared ∧
    (∃ ext, ((runJsonTask env content data shared).1).inner =
      ⟨"system", env.system⟩ :: ⟨"user", content⟩ :: ext) ∧
    ((∃ j toks, ((runJsonTask env content data shared).1).result = .ok () ∧
        ((runJsonTask env content data shared).1).data =
          setData data env.key ⟨j, some toks⟩) ∨
      ∃ m, ((runJsonTask env content data shared).1).result = .error m ∧
        ((runJsonTask env content data shared).1).data = data) := by
  refine ⟨rfl, ?_, ?_⟩
  · obtain ⟨ext, hext⟩ := jsonLoop_inner_ext env env.maxTries 0
      [⟨"system", env.system⟩, ⟨"user", content⟩] data
    refine ⟨ext, ?_⟩
    simpa [runJsonTask] using hext
  · rcases jsonLoop_data_cases env env.maxTries 0
      [⟨"system", env.system⟩, ⟨"user", content⟩] data with ⟨j, toks, hd⟩ | ⟨m, hd⟩
    · have h1 := congrArg Prod.fst hd
      have h2 := congrArg Prod.snd hd
      exact Or.inl ⟨j, toks, by simpa [runJsonTask] using h2,
        by simpa [runJsonTask] using h1⟩
    · have h1 := congrArg Prod.fst hd
      have h2 := congrArg Prod.snd hd
      exact Or.inr ⟨m, by simpa [runJsonTask] using h2,
        by simpa [runJsonTask] using h1⟩

end Chatbot
